import Mathlib

/-!
# Branch-and-bound minimisation with interval arithmetic (`optimization-mpi.cpp`)

A shallow embedding of `split_box` and `minimize` from `src/src/optimization-mpi.cpp`
and the properties of the sequential search engine.

Modelling conventions.

* The number type `double` of the source is modelled by `Dbl K`: an exact value of an
  ordered field `K`, or one of the two infinities.  NaN is outside the model.  The
  arithmetic of `split_box` and `minimize` is exact; `split_box_with` and `minimize_with`
  are the same functions with the midpoint that `double xm = x.mid()` stores as a
  parameter, so that a rounded midpoint can be stated, and `split_box`, `minimize` are
  their instances at the exact midpoint.  Every theorem holds for any linearly ordered
  field (the rationals for concrete evaluation, the reals for the mathematical reading).
* A search box carries finite end points (`interval K`); an enclosure returned by the
  objective may have infinite end points (`interval (Dbl K)`), and so may `min_ub`,
  the stored bounds `lb`, `ub` and `threshold`.
* The in/out parameters `min_ub` and `ml` of `minimize` become an explicit state that
  is passed in and returned.  The recursion of the source is unbounded, so `minimize`
  takes a recursion-depth budget and returns `none` when the budget is exhausted.
-/

namespace Optimization

/-! ## Numbers -/

/-- A `double` of the source: an exact finite value, minus infinity or plus infinity. -/
inductive Dbl (K : Type) where
  | ninf : Dbl K
  | fin (v : K) : Dbl K
  | pinf : Dbl K
deriving DecidableEq

namespace Dbl

variable {K : Type} [LinearOrderedField K]

/-- Order of the extended numbers: `ninf` below every finite value, `pinf` above. -/
def le : Dbl K → Dbl K → Prop
  | ninf, _ => True
  | fin _, ninf => False
  | fin a, fin b => a ≤ b
  | fin _, pinf => True
  | pinf, pinf => True
  | pinf, _ => False

/-- Decision procedure for the order of the extended numbers. -/
def decLe : (a b : Dbl K) → Decidable (le a b)
  | ninf, _ => isTrue trivial
  | fin _, ninf => isFalse (fun h => h)
  | fin a, fin b => inferInstanceAs (Decidable (a ≤ b))
  | fin _, pinf => isTrue trivial
  | pinf, pinf => isTrue trivial
  | pinf, ninf => isFalse (fun h => h)
  | pinf, fin _ => isFalse (fun h => h)

instance instLinearOrder : LinearOrder (Dbl K) where
  le := le
  le_refl := fun a => by cases a <;> simp [le]
  le_trans := fun a b c hab hbc => by
    cases a <;> cases b <;> cases c <;> simp_all [le]
    exact hab.trans hbc
  le_antisymm := fun a b hab hba => by
    cases a <;> cases b <;> simp_all [le]
    exact le_antisymm hab hba
  le_total := fun a b => by
    cases a <;> cases b <;> simp [le]
    exact le_total _ _
  decidableLE := decLe

end Dbl

/-! ## Intervals, boxes and minimizers -/

/-- Modelled from the spec: `interval.h` is absent; an interval is a pair of bounds
`[left, right]`. -/
structure interval (α : Type) where
  left : α
  right : α
deriving DecidableEq

variable {K : Type} [LinearOrderedField K]

/-- Modelled from the spec: `interval::mid`, `mid = (left+right)/2`. -/
def interval.mid (x : interval K) : K := (x.left + x.right) / 2

/-- Modelled from the spec: `interval::width`, `width = right-left`. -/
def interval.width (x : interval K) : K := x.right - x.left

/-- Membership of a point in an interval with finite bounds. -/
def interval.contains (x : interval K) (p : K) : Prop := x.left ≤ p ∧ p ≤ x.right

instance (x : interval K) (p : K) : Decidable (x.contains p) :=
  inferInstanceAs (Decidable (_ ∧ _))

/-- The type `itvfun` of the source: an interval-valued function of two intervals. -/
abbrev itvfun (K : Type) := interval K → interval K → interval (Dbl K)

/-- Modelled from the spec: `minimizer.h` is absent; a minimizer is a box `(x, y)` with
the bounds `lb`, `ub` of the objective over it, as built by
`minimizer{x,y,fxy.left(),fxy.right()}`. -/
structure minimizer (K : Type) where
  x : interval K
  y : interval K
  lb : Dbl K
  ub : Dbl K
deriving DecidableEq

/-- Modelled from the spec: `minimizer.h` is absent; the minimizer collection is an
ordered multiset, ordered by `lb` ascending, ties in insertion order.  It is represented
by the list of its entries in iteration order. -/
abbrev minimizer_list (K : Type) := List (minimizer K)

/-- Modelled from the spec: the ordering of the collection compares `lb` only. -/
def minimizer.less (a b : minimizer K) : Prop := a.lb < b.lb

instance (a b : minimizer K) : Decidable (a.less b) :=
  inferInstanceAs (Decidable (a.lb < b.lb))

/-- Iterator `ml.lower_bound(key)`: the position of the first entry that is not less than
`key`. -/
def minimizer_list.lower_bound (ml : minimizer_list K) (key : minimizer K) : Nat :=
  (ml.takeWhile (fun e => decide (e.less key))).length

/-- Iterator `ml.end()`. -/
def minimizer_list.end_it (ml : minimizer_list K) : Nat := ml.length

/-- Range erasure `ml.erase(first, last)`. -/
def minimizer_list.erase (ml : minimizer_list K) (first last : Nat) :
    minimizer_list K :=
  ml.take first ++ ml.drop last

/-- Modelled from the spec: `minimizer.h` is absent; insertion `ml.insert(m)` into the
ordered multiset adds `m` as one more element, after every entry that is not greater than
`m`. -/
def minimizer_list.insert (ml : minimizer_list K) (m : minimizer K) : minimizer_list K :=
  ml.takeWhile (fun e => decide (¬ m.less e)) ++ m :: ml.dropWhile (fun e => decide (¬ m.less e))

/-! ## `split_box` -/

/-- The four output parameters of `split_box`. -/
structure SplitResult (K : Type) where
  xl : interval K
  xr : interval K
  yl : interval K
  yr : interval K

/-- Function `split_box` of the source in exact arithmetic: both dimensions are cut at
their exact midpoint `(left+right)/2`. -/
def split_box (x y : interval K) : SplitResult K :=
  let xm := x.mid
  let ym := y.mid
  { xl := ⟨x.left, xm⟩
    xr := ⟨xm, x.right⟩
    yl := ⟨y.left, ym⟩
    yr := ⟨ym, y.right⟩ }

/-! ## `minimize` -/

/-- The mutable state of the search: `min_ub` and the minimizer list. -/
abbrev Store (K : Type) := Dbl K × minimizer_list K

/-- The bound-tightening block of `minimize`: when `fxy.right() < min_ub`, `min_ub`
becomes `fxy.right()` and the list is erased from `lower_bound(minimizer{0,0,min_ub,0})`
to its end. -/
def tighten (fxy : interval (Dbl K)) (min_ub : Dbl K) (ml : minimizer_list K) : Store K :=
  if fxy.right < min_ub then
    let min_ub := fxy.right
    let discard_begin := ml.lower_bound ⟨⟨0, 0⟩, ⟨0, 0⟩, min_ub, Dbl.fin 0⟩
    (min_ub, ml.erase discard_begin ml.end_it)
  else (min_ub, ml)

/-- Function `minimize` of the source in exact arithmetic (it subdivides with the exact
`split_box`).  The first argument bounds the recursion depth; the result is the final
`(min_ub, ml)`, or `none` when the budget does not suffice. -/
def minimize (f : itvfun K) : Nat → interval K → interval K → Dbl K → Dbl K →
    minimizer_list K → Option (Store K)
  | 0, _, _, _, _, _ => none
  | fuel + 1, x, y, threshold, min_ub, ml =>
    let fxy := f x y
    if fxy.left > min_ub then some (min_ub, ml)
    else
      let st := tighten fxy min_ub ml
      if Dbl.fin x.width ≤ threshold then
        some (st.1, st.2.insert ⟨x, y, fxy.left, fxy.right⟩)
      else
        let b := split_box x y
        (minimize f fuel b.xl b.yl threshold st.1 st.2).bind fun s1 =>
        (minimize f fuel b.xl b.yr threshold s1.1 s1.2).bind fun s2 =>
        (minimize f fuel b.xr b.yl threshold s2.1 s2.2).bind fun s3 =>
        minimize f fuel b.xr b.yr threshold s3.1 s3.2


/-! ## The midpoint as stored in a `double` -/

/-- The kinds of logged steps: the objective was evaluated on a box at the entry of a
call, the call was prune-rejected, the bound was tightened, the box was inserted. -/
inductive Step where
  | eval
  | reject
  | tighten
  | leaf
deriving DecidableEq

/-- A logged step: its kind, the box and recursion depth of the call it belongs to, and
the state `(min_ub, ml)` right after the step. -/
structure Event (K : Type) where
  step : Step
  x : interval K
  y : interval K
  depth : Nat
  min_ub : Dbl K
  ml : minimizer_list K
deriving DecidableEq

/-- The events of one call of `minimize` before it returns or subdivides. -/
def headEvents (f : itvfun K) (x y : interval K) (depth : Nat) (min_ub : Dbl K)
    (ml : minimizer_list K) : List (Event K) :=
  let fxy := f x y
  let st := tighten fxy min_ub ml
  ⟨Step.eval, x, y, depth, min_ub, ml⟩ ::
    (if fxy.right < min_ub then [⟨Step.tighten, x, y, depth, st.1, st.2⟩] else [])

/-- Function `minimize` with its log.  The last argument is the recursion depth of the
call (0 for the root call). -/
def minimizeLog (f : itvfun K) : Nat → interval K → interval K → Dbl K → Dbl K →
    minimizer_list K → Nat → Option (Store K × List (Event K))
  | 0, _, _, _, _, _, _ => none
  | fuel + 1, x, y, threshold, min_ub, ml, depth =>
    let fxy := f x y
    if fxy.left > min_ub then
      some ((min_ub, ml),
        [⟨Step.eval, x, y, depth, min_ub, ml⟩, ⟨Step.reject, x, y, depth, min_ub, ml⟩])
    else
      let st := tighten fxy min_ub ml
      let hd := headEvents f x y depth min_ub ml
      if Dbl.fin x.width ≤ threshold then
        let ml1 := st.2.insert ⟨x, y, fxy.left, fxy.right⟩
        some ((st.1, ml1), hd ++ [⟨Step.leaf, x, y, depth, st.1, ml1⟩])
      else
        let b := split_box x y
        (minimizeLog f fuel b.xl b.yl threshold st.1 st.2 (depth + 1)).bind fun r1 =>
        (minimizeLog f fuel b.xl b.yr threshold r1.1.1 r1.1.2 (depth + 1)).bind fun r2 =>
        (minimizeLog f fuel b.xr b.yl threshold r2.1.1 r2.1.2 (depth + 1)).bind fun r3 =>
        (minimizeLog f fuel b.xr b.yr threshold r3.1.1 r3.1.2 (depth + 1)).bind fun r4 =>
        some (r4.1, hd ++ r1.2 ++ r2.2 ++ r3.2 ++ r4.2)

/-- The boxes on which the logged run evaluated the objective at recursion depth `k`, in
execution order. -/
def evalBoxesAt (k : Nat) (log : List (Event K)) : List (interval K × interval K) :=
  (log.filter (fun ev => decide (ev.step = Step.eval ∧ ev.depth = k))).map
    (fun ev => (ev.x, ev.y))

/-! ## Quadrants and descendants of a box -/

/-- The four quadrants of a box, in the order in which `minimize` explores them. -/
inductive Quadrant where
  | ll
  | lr
  | rl
  | rr
deriving DecidableEq

/-- The sub-box that `minimize` builds from the outputs of `split_box` for a quadrant:
`(xl,yl)`, `(xl,yr)`, `(xr,yl)`, `(xr,yr)`. -/
def child (q : Quadrant) (x y : interval K) : interval K × interval K :=
  let b := split_box x y
  match q with
  | Quadrant.ll => (b.xl, b.yl)
  | Quadrant.lr => (b.xl, b.yr)
  | Quadrant.rl => (b.xr, b.yl)
  | Quadrant.rr => (b.xr, b.yr)

/-- The box reached from `(x, y)` by repeated quadrant steps. -/
def descend : List Quadrant → interval K → interval K → interval K × interval K
  | [], x, y => (x, y)
  | q :: path, x, y => descend path (child q x y).1 (child q x y).2

/-- Membership of the point `(px, py)` in the box `(x, y)`. -/
def inBox (x y : interval K) (px py : K) : Prop := x.contains px ∧ y.contains py

instance (x y : interval K) (px py : K) : Decidable (inBox x y px py) :=
  inferInstanceAs (Decidable (_ ∧ _))

/-! ## Objectives used in the examples -/

/-- Modelled from the spec: `interval.h` is absent; the square of an interval. -/
def interval.sqr (x : interval K) : interval K :=
  if 0 ≤ x.left then ⟨x.left ^ 2, x.right ^ 2⟩
  else if x.right ≤ 0 then ⟨x.right ^ 2, x.left ^ 2⟩
  else ⟨0, max (x.left ^ 2) (x.right ^ 2)⟩

/-- Modelled from the spec: `interval.h` is absent; the sum of two intervals. -/
def interval.add (a b : interval K) : interval K :=
  ⟨a.left + b.left, a.right + b.right⟩

/-- The natural interval extension of `f(x,y) = x^2 + y^2`. -/
def sumsq : itvfun K := fun x y =>
  let s := x.sqr.add y.sqr
  ⟨Dbl.fin s.left, Dbl.fin s.right⟩

/-- The objective `f(x,y) = max(0,-x) * max(0,x+1)`; it vanishes for `x ≤ -1` and for
`0 ≤ x`, and is positive in between. -/
def ramp (px _py : K) : K := max 0 (-px) * max 0 (px + 1)

/-- The natural interval extension of `ramp`: the enclosure `[max(0,-b), max(0,-a)]` of
the first factor over `[a,b]` times the enclosure `[max(0,a+1), max(0,b+1)]` of the
second, a product of two intervals without negative numbers. -/
def rampItv : itvfun K := fun x _ =>
  ⟨Dbl.fin (max 0 (-x.right) * max 0 (x.left + 1)),
   Dbl.fin (max 0 (-x.left) * max 0 (x.right + 1))⟩

/-- Inclusion soundness of an interval function `F` for an objective `f`: the enclosure
of a box contains the value of `f` at every point of the box. -/
def inclusionSound (f : K → K → K) (F : itvfun K) : Prop :=
  ∀ (x y : interval K) (px py : K), inBox x y px py →
    (F x y).left ≤ Dbl.fin (f px py) ∧ Dbl.fin (f px py) ≤ (F x y).right

/-- An objective whose enclosure is `[-infinity, +infinity]` on every box. -/
def unboundedItv : itvfun K := fun _ _ => ⟨Dbl.ninf, Dbl.pinf⟩

/-- The box `(u, w)` has the widths of depth `d` below a root box of x-width `W` and
y-width `H`, and `d` is the least depth at which the x-width passes the test
`W / 2^d ≤ t`. -/
def atLeafDepth (W H : K) (t : Dbl K) (u w : interval K) (d : Nat) : Prop :=
  u.width = W / 2 ^ d ∧ w.width = H / 2 ^ d ∧ Dbl.fin (W / 2 ^ d) ≤ t ∧
    ∀ j < d, ¬ Dbl.fin (W / 2 ^ j) ≤ t

/-! ## The final merge -/

/-- Modelled from the spec: the gather and merge at the end of `main` is absent from the
source, which stops inside the loop that asks for the function.  The coordinating
process gathers the upper bound and the minimizer collection of each process, takes the
minimum of the gathered upper bounds as the global minimum, and purges every gathered
minimizer whose `lb` exceeds that global minimum. -/
def merge_results (p1 p2 : Store K) : Store K :=
  let global_ub := min p1.1 p2.1
  let gathered := p2.2.foldl (fun acc e => minimizer_list.insert acc e) p1.2
  (global_ub, gathered.filter (fun e => decide (¬ e.lb > global_ub)))

/-! # Theorems -/

namespace Dbl

@[simp] theorem fin_le_fin (a b : K) : (fin a : Dbl K) ≤ fin b ↔ a ≤ b := Iff.rfl

@[simp] theorem le_pinf (a : Dbl K) : a ≤ pinf := by
  cases a <;> trivial

@[simp] theorem ninf_le (a : Dbl K) : ninf ≤ a := trivial

@[simp] theorem not_pinf_le_fin (a : K) : ¬ (pinf : Dbl K) ≤ fin a := fun h => h

@[simp] theorem not_fin_le_ninf (a : K) : ¬ (fin a : Dbl K) ≤ ninf := fun h => h

@[simp] theorem not_pinf_le_ninf : ¬ (pinf : Dbl K) ≤ ninf := fun h => h

@[simp] theorem fin_lt_fin (a b : K) : (fin a : Dbl K) < fin b ↔ a < b := by
  rw [lt_iff_not_le, lt_iff_not_le, fin_le_fin]

@[simp] theorem fin_lt_pinf (a : K) : (fin a : Dbl K) < pinf := by
  rw [lt_iff_not_le]; exact not_pinf_le_fin a

@[simp] theorem ninf_lt_fin (a : K) : (ninf : Dbl K) < fin a := by
  rw [lt_iff_not_le]; exact not_fin_le_ninf a

@[simp] theorem not_lt_ninf (a : Dbl K) : ¬ a < ninf := by
  rw [not_lt]; exact ninf_le a

@[simp] theorem not_pinf_lt (a : Dbl K) : ¬ pinf < a := by
  rw [not_lt]; exact le_pinf a

end Dbl

/-! ## Basic facts about the list operations and `tighten` -/

theorem erase_lower_bound (ml : minimizer_list K) (key : minimizer K) :
    ml.erase (ml.lower_bound key) ml.end_it
      = ml.takeWhile (fun e => decide (e.lb < key.lb)) := by
  unfold minimizer_list.erase minimizer_list.lower_bound minimizer_list.end_it
  rw [List.drop_length, List.append_nil]
  have h : ∀ (p : minimizer K → Bool) (l : List (minimizer K)),
      l.take (l.takeWhile p).length = l.takeWhile p := by
    intro p l
    induction l with
    | nil => rfl
    | cons a l ih =>
      by_cases hp : p a
      · simp [List.takeWhile_cons, hp, ih]
      · simp [List.takeWhile_cons, hp]
  exact h _ ml

theorem mem_insert (ml : minimizer_list K) (m e : minimizer K) :
    e ∈ ml.insert m ↔ e = m ∨ e ∈ ml := by
  unfold minimizer_list.insert
  constructor
  · intro h
    rcases List.mem_append.1 h with h | h
    · exact Or.inr (List.takeWhile_subset _ h)
    · rcases List.mem_cons.1 h with h | h
      · exact Or.inl h
      · exact Or.inr (List.dropWhile_subset _ h)
  · intro h
    rcases h with h | h
    · exact List.mem_append.2 (Or.inr (h ▸ List.mem_cons_self _ _))
    · have h2 := h
      rw [← List.takeWhile_append_dropWhile (fun e => decide (¬ m.less e)) ml] at h2
      rcases List.mem_append.1 h2 with h3 | h3
      · exact List.mem_append.2 (Or.inl h3)
      · exact List.mem_append.2 (Or.inr (List.mem_cons_of_mem _ h3))

theorem tighten_of_lt (fxy : interval (Dbl K)) (m : Dbl K) (ml : minimizer_list K)
    (h : fxy.right < m) :
    tighten fxy m ml = (fxy.right, ml.takeWhile (fun e => decide (e.lb < fxy.right))) := by
  unfold tighten
  rw [if_pos h]
  simp only [erase_lower_bound]

theorem tighten_of_not_lt (fxy : interval (Dbl K)) (m : Dbl K) (ml : minimizer_list K)
    (h : ¬ fxy.right < m) : tighten fxy m ml = (m, ml) := by
  unfold tighten
  rw [if_neg h]

theorem tighten_fst (fxy : interval (Dbl K)) (m : Dbl K) (ml : minimizer_list K) :
    (tighten fxy m ml).1 = min m fxy.right := by
  by_cases h : fxy.right < m
  · rw [tighten_of_lt _ _ _ h, min_eq_right h.le]
  · rw [tighten_of_not_lt _ _ _ h, min_eq_left (not_lt.1 h)]

theorem tighten_fst_le (fxy : interval (Dbl K)) (m : Dbl K) (ml : minimizer_list K) :
    (tighten fxy m ml).1 ≤ m := by
  rw [tighten_fst]; exact min_le_left _ _

theorem mem_tighten (fxy : interval (Dbl K)) (m : Dbl K) (ml : minimizer_list K)
    (e : minimizer K) (h : e ∈ (tighten fxy m ml).2) :
    e ∈ ml ∧ (fxy.right < m → e.lb < fxy.right) := by
  by_cases hlt : fxy.right < m
  · rw [tighten_of_lt _ _ _ hlt] at h
    refine ⟨List.takeWhile_subset _ h, fun _ => ?_⟩
    have := List.mem_takeWhile_imp h
    simpa using this
  · rw [tighten_of_not_lt _ _ _ hlt] at h
    exact ⟨h, fun h2 => absurd h2 hlt⟩

/-! ## Unfolding `minimize` and `minimizeLog` -/

theorem minimize_reject (f : itvfun K) (n : Nat) (x y : interval K) (t m : Dbl K)
    (ml : minimizer_list K) (h : (f x y).left > m) :
    minimize f (n + 1) x y t m ml = some (m, ml) := by
  simp only [minimize, if_pos h]

theorem minimize_leaf (f : itvfun K) (n : Nat) (x y : interval K) (t m : Dbl K)
    (ml : minimizer_list K) (h1 : ¬ (f x y).left > m) (h2 : Dbl.fin x.width ≤ t) :
    minimize f (n + 1) x y t m ml
      = some ((tighten (f x y) m ml).1,
          (tighten (f x y) m ml).2.insert ⟨x, y, (f x y).left, (f x y).right⟩) := by
  simp only [minimize, if_neg h1, if_pos h2]

theorem minimize_split (f : itvfun K) (n : Nat) (x y : interval K) (t m : Dbl K)
    (ml : minimizer_list K) (h1 : ¬ (f x y).left > m) (h2 : ¬ Dbl.fin x.width ≤ t) :
    minimize f (n + 1) x y t m ml
      = (minimize f n (split_box x y).xl (split_box x y).yl t
            (tighten (f x y) m ml).1 (tighten (f x y) m ml).2).bind fun s1 =>
        (minimize f n (split_box x y).xl (split_box x y).yr t s1.1 s1.2).bind fun s2 =>
        (minimize f n (split_box x y).xr (split_box x y).yl t s2.1 s2.2).bind fun s3 =>
        minimize f n (split_box x y).xr (split_box x y).yr t s3.1 s3.2 := by
  simp only [minimize, if_neg h1, if_neg h2]

theorem minimizeLog_reject (f : itvfun K) (n : Nat) (x y : interval K) (t m : Dbl K)
    (ml : minimizer_list K) (d : Nat) (h : (f x y).left > m) :
    minimizeLog f (n + 1) x y t m ml d
      = some ((m, ml),
          [⟨Step.eval, x, y, d, m, ml⟩, ⟨Step.reject, x, y, d, m, ml⟩]) := by
  simp only [minimizeLog, if_pos h]

theorem minimizeLog_leaf (f : itvfun K) (n : Nat) (x y : interval K) (t m : Dbl K)
    (ml : minimizer_list K) (d : Nat) (h1 : ¬ (f x y).left > m)
    (h2 : Dbl.fin x.width ≤ t) :
    minimizeLog f (n + 1) x y t m ml d
      = some (((tighten (f x y) m ml).1,
            (tighten (f x y) m ml).2.insert ⟨x, y, (f x y).left, (f x y).right⟩),
          headEvents f x y d m ml ++
            [⟨Step.leaf, x, y, d, (tighten (f x y) m ml).1,
              (tighten (f x y) m ml).2.insert ⟨x, y, (f x y).left, (f x y).right⟩⟩]) := by
  simp only [minimizeLog, if_neg h1, if_pos h2]

theorem minimizeLog_split (f : itvfun K) (n : Nat) (x y : interval K) (t m : Dbl K)
    (ml : minimizer_list K) (d : Nat) (h1 : ¬ (f x y).left > m)
    (h2 : ¬ Dbl.fin x.width ≤ t) :
    minimizeLog f (n + 1) x y t m ml d
      = (minimizeLog f n (split_box x y).xl (split_box x y).yl t
            (tighten (f x y) m ml).1 (tighten (f x y) m ml).2 (d + 1)).bind fun r1 =>
        (minimizeLog f n (split_box x y).xl (split_box x y).yr t r1.1.1 r1.1.2
            (d + 1)).bind fun r2 =>
        (minimizeLog f n (split_box x y).xr (split_box x y).yl t r2.1.1 r2.1.2
            (d + 1)).bind fun r3 =>
        (minimizeLog f n (split_box x y).xr (split_box x y).yr t r3.1.1 r3.1.2
            (d + 1)).bind fun r4 =>
        some (r4.1, headEvents f x y d m ml ++ r1.2 ++ r2.2 ++ r3.2 ++ r4.2) := by
  simp only [minimizeLog, if_neg h1, if_neg h2]

/-- Inversion of a successful run of `minimizeLog`: the call was rejected, or it was a
leaf, or it ran its four sub-calls one after the other. -/
theorem minimizeLog_cases (f : itvfun K) (n : Nat) (x y : interval K) (t m : Dbl K)
    (ml : minimizer_list K) (d : Nat) (s : Store K) (log : List (Event K))
    (h : minimizeLog f (n + 1) x y t m ml d = some (s, log)) :
    ((f x y).left > m ∧ s = (m, ml) ∧
        log = [⟨Step.eval, x, y, d, m, ml⟩, ⟨Step.reject, x, y, d, m, ml⟩]) ∨
    (¬ (f x y).left > m ∧ Dbl.fin x.width ≤ t ∧
        s = ((tighten (f x y) m ml).1,
          (tighten (f x y) m ml).2.insert ⟨x, y, (f x y).left, (f x y).right⟩) ∧
        log = headEvents f x y d m ml ++ [⟨Step.leaf, x, y, d, s.1, s.2⟩]) ∨
    (¬ (f x y).left > m ∧ ¬ Dbl.fin x.width ≤ t ∧
      ∃ s1 l1 s2 l2 s3 l3 l4,
        minimizeLog f n (split_box x y).xl (split_box x y).yl t
          (tighten (f x y) m ml).1 (tighten (f x y) m ml).2 (d + 1) = some (s1, l1) ∧
        minimizeLog f n (split_box x y).xl (split_box x y).yr t s1.1 s1.2 (d + 1)
          = some (s2, l2) ∧
        minimizeLog f n (split_box x y).xr (split_box x y).yl t s2.1 s2.2 (d + 1)
          = some (s3, l3) ∧
        minimizeLog f n (split_box x y).xr (split_box x y).yr t s3.1 s3.2 (d + 1)
          = some (s, l4) ∧
        log = headEvents f x y d m ml ++ l1 ++ l2 ++ l3 ++ l4) := by
  by_cases h1 : (f x y).left > m
  · rw [minimizeLog_reject f n x y t m ml d h1] at h
    simp only [Option.some.injEq, Prod.mk.injEq] at h
    exact Or.inl ⟨h1, h.1.symm, h.2.symm⟩
  · by_cases h2 : Dbl.fin x.width ≤ t
    · rw [minimizeLog_leaf f n x y t m ml d h1 h2] at h
      simp only [Option.some.injEq, Prod.mk.injEq] at h
      refine Or.inr (Or.inl ⟨h1, h2, h.1.symm, ?_⟩)
      rw [← h.2, ← h.1]
    · rw [minimizeLog_split f n x y t m ml d h1 h2] at h
      simp only [Option.bind_eq_some, Option.some.injEq, Prod.mk.injEq, Prod.exists] at h
      obtain ⟨m1, ml1, l1, e1, m2, ml2, l2, e2, m3, ml3, l3, e3, m4, ml4, l4, e4, hs, hl⟩ := h
      refine Or.inr (Or.inr ⟨h1, h2, (m1, ml1), l1, (m2, ml2), l2, (m3, ml3), l3, l4,
        e1, e2, e3, ?_, hl.symm⟩)
      rw [e4, ← hs]

/-- Erasing the log of `minimizeLog` gives `minimize`. -/
theorem minimizeLog_fst (f : itvfun K) (n : Nat) (x y : interval K) (t m : Dbl K)
    (ml : minimizer_list K) (d : Nat) :
    (minimizeLog f n x y t m ml d).map Prod.fst = minimize f n x y t m ml := by
  induction n generalizing x y m ml d with
  | zero => rfl
  | succ n ih =>
    by_cases h1 : (f x y).left > m
    · rw [minimizeLog_reject f n x y t m ml d h1, minimize_reject f n x y t m ml h1]
      rfl
    · by_cases h2 : Dbl.fin x.width ≤ t
      · rw [minimizeLog_leaf f n x y t m ml d h1 h2, minimize_leaf f n x y t m ml h1 h2]
        rfl
      · rw [minimizeLog_split f n x y t m ml d h1 h2, minimize_split f n x y t m ml h1 h2]
        simp only [← ih _ _ _ _ (d + 1)]
        cases minimizeLog f n (split_box x y).xl (split_box x y).yl t
          (tighten (f x y) m ml).1 (tighten (f x y) m ml).2 (d + 1) with
        | none => rfl
        | some r1 =>
          simp only [Option.some_bind, Option.map_some']
          cases minimizeLog f n (split_box x y).xl (split_box x y).yr t r1.1.1 r1.1.2
            (d + 1) with
          | none => rfl
          | some r2 =>
            simp only [Option.some_bind, Option.map_some']
            cases minimizeLog f n (split_box x y).xr (split_box x y).yl t r2.1.1 r2.1.2
              (d + 1) with
            | none => rfl
            | some r3 =>
              simp only [Option.some_bind, Option.map_some']
              cases minimizeLog f n (split_box x y).xr (split_box x y).yr t r3.1.1
                r3.1.2 (d + 1) with
              | none => rfl
              | some r4 => rfl

theorem minimize_of_minimizeLog (f : itvfun K) (n : Nat) (x y : interval K) (t m : Dbl K)
    (ml : minimizer_list K) (d : Nat) (s : Store K) (log : List (Event K))
    (h : minimizeLog f n x y t m ml d = some (s, log)) :
    minimize f n x y t m ml = some s := by
  rw [← minimizeLog_fst f n x y t m ml d, h]
  rfl

/-! ## A general invariant rule for the search -/

theorem mem_headEvents (f : itvfun K) (x y : interval K) (d : Nat) (m : Dbl K)
    (ml : minimizer_list K) (ev : Event K) (h : ev ∈ headEvents f x y d m ml) :
    ev = ⟨Step.eval, x, y, d, m, ml⟩ ∨
    ((f x y).right < m ∧
      ev = ⟨Step.tighten, x, y, d, (tighten (f x y) m ml).1, (tighten (f x y) m ml).2⟩) := by
  unfold headEvents at h
  rcases List.mem_cons.1 h with h | h
  · exact Or.inl h
  · by_cases hlt : (f x y).right < m
    · rw [if_pos hlt] at h
      exact Or.inr ⟨hlt, List.mem_singleton.1 h⟩
    · rw [if_neg hlt] at h
      exact absurd h (List.not_mem_nil _)

/-- Invariant rule.  `B` is a property of the box and depth of a call that passes from
a subdivided box to its four quadrants, `I` a property of the store kept by tightening
and by insertion, `Q` a property of the logged events that holds for each kind of event
when it is created.  Then `I` holds of the final store and `Q` of every logged event. -/
theorem minimizeLog_invariant (f : itvfun K) (t : Dbl K)
    (B : interval K → interval K → Nat → Prop)
    (I : Dbl K → minimizer_list K → Prop)
    (Q : Event K → Prop)
    (hB : ∀ x y d, B x y d → ¬ Dbl.fin x.width ≤ t →
      ∀ q, B (child q x y).1 (child q x y).2 (d + 1))
    (hT : ∀ x y d m ml, B x y d → I m ml → ¬ (f x y).left > m →
      I (tighten (f x y) m ml).1 (tighten (f x y) m ml).2)
    (hL : ∀ x y d m ml, B x y d → I m ml → ¬ (f x y).left > m → Dbl.fin x.width ≤ t →
      I (tighten (f x y) m ml).1
        ((tighten (f x y) m ml).2.insert ⟨x, y, (f x y).left, (f x y).right⟩))
    (hQe : ∀ x y d m ml, B x y d → I m ml → Q ⟨Step.eval, x, y, d, m, ml⟩)
    (hQr : ∀ x y d m ml, B x y d → I m ml → (f x y).left > m →
      Q ⟨Step.reject, x, y, d, m, ml⟩)
    (hQt : ∀ x y d m ml, B x y d → I m ml → ¬ (f x y).left > m → (f x y).right < m →
      Q ⟨Step.tighten, x, y, d, (tighten (f x y) m ml).1, (tighten (f x y) m ml).2⟩)
    (hQl : ∀ x y d m ml, B x y d → I m ml → ¬ (f x y).left > m → Dbl.fin x.width ≤ t →
      Q ⟨Step.leaf, x, y, d, (tighten (f x y) m ml).1,
        (tighten (f x y) m ml).2.insert ⟨x, y, (f x y).left, (f x y).right⟩⟩) :
    ∀ (n : Nat) (x y : interval K) (m : Dbl K) (ml : minimizer_list K) (d : Nat)
      (s : Store K) (log : List (Event K)),
      B x y d → I m ml → minimizeLog f n x y t m ml d = some (s, log) →
      I s.1 s.2 ∧ ∀ ev ∈ log, Q ev := by
  intro n
  induction n with
  | zero =>
    intro x y m ml d s log _ _ h
    exact absurd h (by simp [minimizeLog])
  | succ n ih =>
    intro x y m ml d s log hb hi h
    have hhead : ¬ (f x y).left > m → ∀ ev ∈ headEvents f x y d m ml, Q ev := by
      intro h1 ev hev
      rcases mem_headEvents f x y d m ml ev hev with he | ⟨hlt, he⟩
      · rw [he]; exact hQe x y d m ml hb hi
      · rw [he]; exact hQt x y d m ml hb hi h1 hlt
    rcases minimizeLog_cases f n x y t m ml d s log h with
      ⟨h1, hs, hl⟩ | ⟨h1, h2, hs, hl⟩ | ⟨h1, h2, s1, l1, s2, l2, s3, l3, l4, e1, e2, e3, e4, hl⟩
    · refine ⟨by rw [hs]; exact hi, ?_⟩
      intro ev hev
      rw [hl] at hev
      simp only [List.mem_cons, List.mem_singleton, List.not_mem_nil, or_false] at hev
      rcases hev with he | he
      · rw [he]; exact hQe x y d m ml hb hi
      · rw [he]; exact hQr x y d m ml hb hi h1
    · refine ⟨by rw [hs]; exact hL x y d m ml hb hi h1 h2, ?_⟩
      intro ev hev
      rw [hl] at hev
      rcases List.mem_append.1 hev with hev | hev
      · exact hhead h1 ev hev
      · rw [List.mem_singleton.1 hev, hs]
        exact hQl x y d m ml hb hi h1 h2
    · have hc := hB x y d hb h2
      have r1 := ih _ _ _ _ _ _ _ (hc Quadrant.ll) (hT x y d m ml hb hi h1) e1
      have r2 := ih _ _ _ _ _ _ _ (hc Quadrant.lr) r1.1 e2
      have r3 := ih _ _ _ _ _ _ _ (hc Quadrant.rl) r2.1 e3
      have r4 := ih _ _ _ _ _ _ _ (hc Quadrant.rr) r3.1 e4
      refine ⟨r4.1, ?_⟩
      intro ev hev
      rw [hl] at hev
      simp only [List.mem_append] at hev
      rcases hev with (((hev | hev) | hev) | hev) | hev
      · exact hhead h1 ev hev
      · exact r1.2 ev hev
      · exact r2.2 ev hev
      · exact r3.2 ev hev
      · exact r4.2 ev hev

/-! ## Descendants -/

theorem descend_snoc (path : List Quadrant) (q : Quadrant) (x y : interval K) :
    descend (path ++ [q]) x y = child q (descend path x y).1 (descend path x y).2 := by
  induction path generalizing x y with
  | nil => rfl
  | cons p path ih => exact ih _ _

/-- Every logged event belongs to a call on a descendant of the root box, reached by as
many quadrant steps as the depth of the call. -/
theorem events_descend (f : itvfun K) (n : Nat) (x y : interval K) (t m : Dbl K)
    (ml : minimizer_list K) (s : Store K) (log : List (Event K))
    (h : minimizeLog f n x y t m ml 0 = some (s, log)) :
    ∀ ev ∈ log, ∃ path : List Quadrant,
      path.length = ev.depth ∧ (ev.x, ev.y) = descend path x y := by
  have key := minimizeLog_invariant f t
    (fun x1 y1 d1 => ∃ path : List Quadrant, path.length = d1 ∧ (x1, y1) = descend path x y)
    (fun _ _ => True)
    (fun ev => ∃ path : List Quadrant,
      path.length = ev.depth ∧ (ev.x, ev.y) = descend path x y)
    (by
      rintro x1 y1 d1 ⟨path, hlen, hxy⟩ _ q
      refine ⟨path ++ [q], by simp [hlen], ?_⟩
      rw [descend_snoc, ← hxy])
    (fun _ _ _ _ _ _ _ _ => trivial)
    (fun _ _ _ _ _ _ _ _ _ => trivial)
    (fun _ _ _ _ _ hb _ => hb)
    (fun _ _ _ _ _ hb _ _ => hb)
    (fun _ _ _ _ _ hb _ _ _ => hb)
    (fun _ _ _ _ _ hb _ _ _ => hb)
    n x y m ml 0 s log ⟨[], rfl, rfl⟩ trivial h
  exact key.2

/-! ## Independence of the recursion budget -/

theorem minimize_fuel_succ (f : itvfun K) (n : Nat) (x y : interval K) (t m : Dbl K)
    (ml : minimizer_list K) (s : Store K) (h : minimize f n x y t m ml = some s) :
    minimize f (n + 1) x y t m ml = some s := by
  induction n generalizing x y m ml s with
  | zero => exact absurd h (by simp [minimize])
  | succ n ih =>
    by_cases h1 : (f x y).left > m
    · rw [minimize_reject f n x y t m ml h1] at h
      rw [minimize_reject f (n + 1) x y t m ml h1, h]
    · by_cases h2 : Dbl.fin x.width ≤ t
      · rw [minimize_leaf f n x y t m ml h1 h2] at h
        rw [minimize_leaf f (n + 1) x y t m ml h1 h2, h]
      · rw [minimize_split f n x y t m ml h1 h2] at h
        rw [minimize_split f (n + 1) x y t m ml h1 h2]
        simp only [Option.bind_eq_some] at h
        obtain ⟨s1, e1, s2, e2, s3, e3, e4⟩ := h
        rw [ih _ _ _ _ _ e1, Option.some_bind, ih _ _ _ _ _ e2, Option.some_bind,
          ih _ _ _ _ _ e3, Option.some_bind, ih _ _ _ _ _ e4]

theorem minimize_fuel_add (f : itvfun K) (n k : Nat) (x y : interval K) (t m : Dbl K)
    (ml : minimizer_list K) (s : Store K) (h : minimize f n x y t m ml = some s) :
    minimize f (n + k) x y t m ml = some s := by
  induction k with
  | zero => exact h
  | succ k ih => exact minimize_fuel_succ f (n + k) x y t m ml s ih

/-! ## Soundness (C1) -/

theorem ramp_sound : inclusionSound (K := K) ramp rampItv := by
  intro x y px py h
  obtain ⟨⟨hl, hr⟩, _⟩ := h
  simp only [rampItv, ramp, Dbl.fin_le_fin]
  constructor
  · apply mul_le_mul
    · exact max_le_max le_rfl (neg_le_neg hr)
    · exact max_le_max le_rfl (by linarith)
    · exact le_max_left _ _
    · exact le_max_left _ _
  · apply mul_le_mul
    · exact max_le_max le_rfl (neg_le_neg hl)
    · exact max_le_max le_rfl (by linarith)
    · exact le_max_left _ _
    · exact le_max_left _ _

/-- C1 (soundness), evaluated at a failing input.  For the objective
`ramp(x,y) = max(0,-x) * max(0,x+1)` with its inclusion-sound natural extension `rampItv`,
root box `[-2,2] x [-2,2]`, threshold `2`, `min_ub = +infinity` and an empty list,
`minimize` returns (for every sufficient recursion budget) only the two boxes with
`x = [0,2]`; the point `(-3/2, 0)` of the root box, at which `ramp` attains its global
minimum `0`, lies in no returned box.  The two boxes with `x = [-2,0]` had been inserted
with `lb = 0` and were erased when `min_ub` was tightened to `0`, because
`lower_bound` also selects the entries whose `lb` equals the new bound. -/
theorem minimize_loses_minimizer :
    inclusionSound (K := ℚ) ramp rampItv ∧
    (∀ k : Nat, minimize (K := ℚ) rampItv (2 + k) ⟨-2, 2⟩ ⟨-2, 2⟩ (Dbl.fin 2) Dbl.pinf []
      = some (Dbl.fin 0,
          [⟨⟨0, 2⟩, ⟨-2, 0⟩, Dbl.fin 0, Dbl.fin 0⟩, ⟨⟨0, 2⟩, ⟨0, 2⟩, Dbl.fin 0, Dbl.fin 0⟩])) ∧
    inBox (K := ℚ) ⟨-2, 2⟩ ⟨-2, 2⟩ (-3 / 2) 0 ∧
    (∀ qx qy : ℚ, inBox ⟨-2, 2⟩ ⟨-2, 2⟩ qx qy → ramp (-3 / 2) 0 ≤ ramp qx qy) ∧
    (∀ e ∈ ([⟨⟨0, 2⟩, ⟨-2, 0⟩, Dbl.fin 0, Dbl.fin 0⟩,
        ⟨⟨0, 2⟩, ⟨0, 2⟩, Dbl.fin 0, Dbl.fin 0⟩] : minimizer_list ℚ),
      ¬ inBox e.x e.y (-3 / 2) 0) := by
  refine ⟨ramp_sound, ?_, by decide!, ?_, by decide!⟩
  · intro k
    exact minimize_fuel_add rampItv 2 k _ _ _ _ _ _ (by decide!)
  · intro qx qy _
    have h0 : ramp (-3 / 2 : ℚ) 0 = 0 := by decide!
    rw [h0]
    exact mul_nonneg (le_max_left _ _) (le_max_left _ _)

/-! ## Collection consistency (C2) -/

theorem tighten_consistent (fxy : interval (Dbl K)) (m : Dbl K) (ml : minimizer_list K)
    (h0 : ∀ e ∈ ml, e.lb ≤ m) :
    ∀ e ∈ (tighten fxy m ml).2, e.lb ≤ (tighten fxy m ml).1 := by
  intro e he
  have hm := mem_tighten fxy m ml e he
  by_cases hlt : fxy.right < m
  · rw [tighten_of_lt _ _ _ hlt]
    exact (hm.2 hlt).le
  · rw [tighten_of_not_lt _ _ _ hlt]
    exact h0 e hm.1

/-- C2 (collection consistency).  Let the enclosure `f` returns be well-formed
(`left ≤ right`) on every box the call can reach, i.e. the box `(x, y)` of the call and
its descendants, and let every entry of `ml` have `lb ≤ min_ub` before the call.  Then
for every run of `minimize` that returns, every entry of the returned list has
`lb ≤` the returned `min_ub`, and the same holds for the state after every logged step
of the run, in particular after every tightening step. -/
theorem collection_consistency (f : itvfun K) (n : Nat) (x y : interval K) (t m : Dbl K)
    (ml : minimizer_list K) (s : Store K) (log : List (Event K))
    (hwf : ∀ path : List Quadrant,
      (f (descend path x y).1 (descend path x y).2).left
        ≤ (f (descend path x y).1 (descend path x y).2).right)
    (h0 : ∀ e ∈ ml, e.lb ≤ m)
    (hrun : minimizeLog f n x y t m ml 0 = some (s, log)) :
    minimize f n x y t m ml = some s ∧
    (∀ e ∈ s.2, e.lb ≤ s.1) ∧
    (∀ ev ∈ log, ∀ e ∈ ev.ml, e.lb ≤ ev.min_ub) := by
  have hins : ∀ x1 y1 (d1 : Nat) m1 ml1,
      (∃ path : List Quadrant, (x1, y1) = descend path x y) → (∀ e ∈ ml1, e.lb ≤ m1) →
      ¬ (f x1 y1).left > m1 →
      ∀ e ∈ (tighten (f x1 y1) m1 ml1).2.insert ⟨x1, y1, (f x1 y1).left, (f x1 y1).right⟩,
        e.lb ≤ (tighten (f x1 y1) m1 ml1).1 := by
    rintro x1 y1 _ m1 ml1 ⟨path, hp⟩ hi h1 e he
    rcases (mem_insert _ _ _).1 he with he | he
    · rw [he, tighten_fst]
      have hw := hwf path
      rw [← hp] at hw
      exact le_min (not_lt.1 h1) hw
    · exact tighten_consistent _ _ _ hi e he
  have key := minimizeLog_invariant f t
    (fun x1 y1 _ => ∃ path : List Quadrant, (x1, y1) = descend path x y)
    (fun m1 ml1 => ∀ e ∈ ml1, e.lb ≤ m1)
    (fun ev => ∀ e ∈ ev.ml, e.lb ≤ ev.min_ub)
    (by
      rintro x1 y1 _ ⟨path, hxy⟩ _ q
      exact ⟨path ++ [q], by rw [descend_snoc, ← hxy]⟩)
    (fun x1 y1 _ m1 ml1 _ hi _ => tighten_consistent (f x1 y1) m1 ml1 hi)
    (fun x1 y1 d1 m1 ml1 hb hi h1 _ => hins x1 y1 d1 m1 ml1 hb hi h1)
    (fun _ _ _ _ _ _ hi => hi)
    (fun _ _ _ _ _ _ hi _ => hi)
    (fun x1 y1 _ m1 ml1 _ hi _ _ => tighten_consistent (f x1 y1) m1 ml1 hi)
    (fun x1 y1 d1 m1 ml1 hb hi h1 _ => hins x1 y1 d1 m1 ml1 hb hi h1)
    n x y m ml 0 s log ⟨[], rfl⟩ h0 hrun
  exact ⟨minimize_of_minimizeLog f n x y t m ml 0 s log hrun, key.1, key.2⟩

/-! ## Well-formed boxes -/

theorem split_box_wf (x y : interval K) (hx : x.left ≤ x.right) (hy : y.left ≤ y.right)
    (q : Quadrant) :
    (child q x y).1.left ≤ (child q x y).1.right ∧
    (child q x y).2.left ≤ (child q x y).2.right := by
  have h1 : x.left ≤ (x.left + x.right) / 2 := by linarith
  have h2 : (x.left + x.right) / 2 ≤ x.right := by linarith
  have h3 : y.left ≤ (y.left + y.right) / 2 := by linarith
  have h4 : (y.left + y.right) / 2 ≤ y.right := by linarith
  cases q <;> simp only [child, split_box, interval.mid] <;> constructor <;> assumption

theorem descend_wf (path : List Quadrant) (x y : interval K) (hx : x.left ≤ x.right)
    (hy : y.left ≤ y.right) :
    (descend path x y).1.left ≤ (descend path x y).1.right ∧
    (descend path x y).2.left ≤ (descend path x y).2.right := by
  induction path generalizing x y with
  | nil => exact ⟨hx, hy⟩
  | cons q path ih =>
    exact ih _ _ (split_box_wf x y hx hy q).1 (split_box_wf x y hx hy q).2

theorem sqr_wf (x : interval K) (hx : x.left ≤ x.right) : x.sqr.left ≤ x.sqr.right := by
  unfold interval.sqr
  by_cases h0 : 0 ≤ x.left
  · rw [if_pos h0]
    exact pow_le_pow_left₀ h0 hx 2
  · rw [if_neg h0]
    by_cases h1 : x.right ≤ 0
    · rw [if_pos h1]
      show x.right ^ 2 ≤ x.left ^ 2
      nlinarith
    · rw [if_neg h1]
      exact le_max_of_le_left (sq_nonneg _)

theorem sumsq_wf (x y : interval K) (hx : x.left ≤ x.right) (hy : y.left ≤ y.right) :
    (sumsq x y).left ≤ (sumsq x y).right := by
  simp only [sumsq, interval.add, Dbl.fin_le_fin]
  exact add_le_add (sqr_wf x hx) (sqr_wf y hy)

theorem sumsq_wf_descend (path : List Quadrant) (x y : interval K) (hx : x.left ≤ x.right)
    (hy : y.left ≤ y.right) :
    (sumsq (descend path x y).1 (descend path x y).2).left
      ≤ (sumsq (descend path x y).1 (descend path x y).2).right :=
  sumsq_wf _ _ (descend_wf path x y hx hy).1 (descend_wf path x y hx hy).2

/-- Witness of C2: the search for `x^2 + y^2` over `[-1,1] x [-1,1]` with threshold
`1/2`, from `min_ub = +infinity` and the empty list. -/
theorem collection_consistency_witness :
    ∃ (s : Store ℚ) (log : List (Event ℚ)),
      minimizeLog sumsq 3 ⟨-1, 1⟩ ⟨-1, 1⟩ (Dbl.fin (1 / 2)) Dbl.pinf [] 0 = some (s, log) ∧
      minimize sumsq 3 ⟨-1, 1⟩ ⟨-1, 1⟩ (Dbl.fin (1 / 2)) Dbl.pinf [] = some s ∧
      (∀ e ∈ s.2, e.lb ≤ s.1) ∧
      (∀ ev ∈ log, ∀ e ∈ ev.ml, e.lb ≤ ev.min_ub) := by
  have hsome : (minimizeLog (K := ℚ) sumsq 3 ⟨-1, 1⟩ ⟨-1, 1⟩ (Dbl.fin (1 / 2)) Dbl.pinf []
      0).isSome = true := by decide!
  obtain ⟨⟨s, log⟩, h⟩ := Option.isSome_iff_exists.1 hsome
  exact ⟨s, log, h, collection_consistency sumsq 3 ⟨-1, 1⟩ ⟨-1, 1⟩ (Dbl.fin (1 / 2))
    Dbl.pinf [] s log (fun path => sumsq_wf_descend path _ _ (by decide!) (by decide!))
    (fun _ he => absurd he (List.not_mem_nil _)) h⟩

/-! ## Bound monotonicity (C3) -/

theorem seg_append {a b c : Dbl K} {l l' : List (Dbl K)}
    (h1 : (a :: (l ++ [b])).Pairwise (fun u v => v ≤ u))
    (h2 : (b :: (l' ++ [c])).Pairwise (fun u v => v ≤ u)) :
    (a :: ((l ++ l') ++ [c])).Pairwise (fun u v => v ≤ u) := by
  simp only [List.pairwise_cons, List.pairwise_append, List.mem_append, List.mem_singleton,
    List.Pairwise.nil, List.not_mem_nil, false_implies, implies_true, and_true,
    forall_eq] at h1 h2 ⊢
  obtain ⟨ha, hl, -, hlb⟩ := h1
  obtain ⟨hb, hl', -, hlc⟩ := h2
  have hab : b ≤ a := ha b (Or.inr rfl)
  have hcb : c ≤ b := hb c (Or.inr rfl)
  refine ⟨?_, ⟨hl, hl', ?_⟩, trivial, ?_⟩
  · rintro v ((hv | hv) | hv)
    · exact ha v (Or.inl hv)
    · exact (hb v (Or.inl hv)).trans hab
    · rw [hv]; exact hcb.trans hab
  · intro u hu v hv
    exact (hb v (Or.inl hv)).trans (hlb u hu)
  · rintro u (hu | hu)
    · exact hcb.trans (hlb u hu)
    · exact hlc u hu

theorem headEvents_seg (f : itvfun K) (x y : interval K) (d : Nat) (m : Dbl K)
    (ml : minimizer_list K) :
    (m :: ((headEvents f x y d m ml).map Event.min_ub
      ++ [(tighten (f x y) m ml).1])).Pairwise (fun u v => v ≤ u) := by
  have hle := tighten_fst_le (f x y) m ml
  unfold headEvents
  by_cases hlt : (f x y).right < m
  · simp [if_pos hlt, hle]
  · simp [if_neg hlt, hle]

theorem minimizeLog_seg (f : itvfun K) (t : Dbl K) (n : Nat) :
    ∀ (x y : interval K) (m : Dbl K) (ml : minimizer_list K) (d : Nat) (s : Store K)
      (log : List (Event K)), minimizeLog f n x y t m ml d = some (s, log) →
      (m :: (log.map Event.min_ub ++ [s.1])).Pairwise (fun u v => v ≤ u) := by
  induction n with
  | zero =>
    intro x y m ml d s log h
    exact absurd h (by simp [minimizeLog])
  | succ n ih =>
    intro x y m ml d s log h
    rcases minimizeLog_cases f n x y t m ml d s log h with
      ⟨_, hs, hl⟩ | ⟨_, _, hs, hl⟩ | ⟨_, _, s1, l1, s2, l2, s3, l3, l4, e1, e2, e3, e4, hl⟩
    · rw [hs, hl]
      simp
    · have hh := headEvents_seg f x y d m ml
      have hs1 : s.1 = (tighten (f x y) m ml).1 := by rw [hs]
      have h2 : ((tighten (f x y) m ml).1 :: ([s.1] ++ [s.1])).Pairwise
          (fun u v => v ≤ u) := by
        rw [hs1]; simp
      have := seg_append hh h2
      rw [hl]
      simpa using this
    · have hh := headEvents_seg f x y d m ml
      have := seg_append (seg_append (seg_append (seg_append hh (ih _ _ _ _ _ _ _ e1))
        (ih _ _ _ _ _ _ _ e2)) (ih _ _ _ _ _ _ _ e3)) (ih _ _ _ _ _ _ _ e4)
      rw [hl]
      simpa using this

/-- C3 (bound monotonicity).  For every objective, box, threshold and initial state, a
run of `minimize` that returns ends with `min_ub` less than or equal to its value before
the call; moreover the values of `min_ub` before the call, after each logged step of the
recursion and at the return are in non-increasing order: `min_ub` is never increased. -/
theorem bound_monotone (f : itvfun K) (n : Nat) (x y : interval K) (t m : Dbl K)
    (ml : minimizer_list K) (d : Nat) (s : Store K) (log : List (Event K))
    (hrun : minimizeLog f n x y t m ml d = some (s, log)) :
    minimize f n x y t m ml = some s ∧ s.1 ≤ m ∧
    (m :: (log.map Event.min_ub ++ [s.1])).Pairwise (fun u v => v ≤ u) := by
  have hseg := minimizeLog_seg f t n x y m ml d s log hrun
  refine ⟨minimize_of_minimizeLog f n x y t m ml d s log hrun, ?_, hseg⟩
  exact (List.pairwise_cons.1 hseg).1 s.1 (List.mem_append.2 (Or.inr (List.mem_singleton.2 rfl)))

/-- Witness of C3: the search for `x^2 + y^2` over `[-1,1] x [-1,1]` with threshold
`1/2`, from `min_ub = +infinity` and the empty list. -/
theorem bound_monotone_witness :
    ∃ (s : Store ℚ) (log : List (Event ℚ)),
      minimizeLog sumsq 3 ⟨-1, 1⟩ ⟨-1, 1⟩ (Dbl.fin (1 / 2)) Dbl.pinf [] 0 = some (s, log) ∧
      minimize sumsq 3 ⟨-1, 1⟩ ⟨-1, 1⟩ (Dbl.fin (1 / 2)) Dbl.pinf [] = some s ∧
      s.1 ≤ Dbl.pinf ∧
      (Dbl.pinf :: (log.map Event.min_ub ++ [s.1])).Pairwise (fun u v => v ≤ u) := by
  have hsome : (minimizeLog (K := ℚ) sumsq 3 ⟨-1, 1⟩ ⟨-1, 1⟩ (Dbl.fin (1 / 2)) Dbl.pinf []
      0).isSome = true := by decide!
  obtain ⟨⟨s, log⟩, h⟩ := Option.isSome_iff_exists.1 hsome
  exact ⟨s, log, h, bound_monotone sumsq 3 ⟨-1, 1⟩ ⟨-1, 1⟩ (Dbl.fin (1 / 2)) Dbl.pinf [] 0
    s log h⟩

/-! ## The upper bound only takes realized values (C4) -/

theorem eval_mem_headEvents (f : itvfun K) (x y : interval K) (d : Nat) (m : Dbl K)
    (ml : minimizer_list K) :
    (⟨Step.eval, x, y, d, m, ml⟩ : Event K) ∈ headEvents f x y d m ml := by
  unfold headEvents
  exact List.mem_cons_self _ _

theorem minimizeLog_realized (f : itvfun K) (t : Dbl K) (n : Nat) :
    ∀ (x y : interval K) (m : Dbl K) (ml : minimizer_list K) (d : Nat) (s : Store K)
      (log : List (Event K)), minimizeLog f n x y t m ml d = some (s, log) →
      ∀ v ∈ s.1 :: log.map Event.min_ub,
        v = m ∨ ∃ ev ∈ log, ev.step = Step.eval ∧ v = (f ev.x ev.y).right := by
  induction n with
  | zero =>
    intro x y m ml d s log h
    exact absurd h (by simp [minimizeLog])
  | succ n ih =>
    intro x y m ml d s log h
    -- the values taken in the head of the call
    have hhd : ∀ v ∈ (tighten (f x y) m ml).1 :: (headEvents f x y d m ml).map Event.min_ub,
        v = m ∨ v = (f x y).right := by
      intro v hv
      rcases List.mem_cons.1 hv with hv | hv
      · rw [hv, tighten_fst]
        rcases min_choice m (f x y).right with h | h
        · exact Or.inl h
        · exact Or.inr h
      · obtain ⟨ev, hev, rfl⟩ := List.mem_map.1 hv
        rcases mem_headEvents f x y d m ml ev hev with he | ⟨_, he⟩
        · rw [he]; exact Or.inl rfl
        · rw [he]
          show (tighten (f x y) m ml).1 = m ∨ (tighten (f x y) m ml).1 = (f x y).right
          rw [tighten_fst]
          rcases min_choice m (f x y).right with h | h
          · exact Or.inl h
          · exact Or.inr h
    have lift : ∀ (m1 : Dbl K) (l1 : List (Event K)), (∀ ev ∈ l1, ev ∈ log) →
        (m1 = m ∨ ∃ ev ∈ log, ev.step = Step.eval ∧ m1 = (f ev.x ev.y).right) →
        ∀ v, (v = m1 ∨ ∃ ev ∈ l1, ev.step = Step.eval ∧ v = (f ev.x ev.y).right) →
          (v = m ∨ ∃ ev ∈ log, ev.step = Step.eval ∧ v = (f ev.x ev.y).right) := by
      intro m1 l1 hsub hm1 v hv
      rcases hv with hv | ⟨ev, hev, h1, h2⟩
      · rw [hv]; exact hm1
      · exact Or.inr ⟨ev, hsub ev hev, h1, h2⟩
    rcases minimizeLog_cases f n x y t m ml d s log h with
      ⟨_, hs, hl⟩ | ⟨_, _, hs, hl⟩ | ⟨_, _, s1, l1, s2, l2, s3, l3, l4, e1, e2, e3, e4, hl⟩
    · intro v hv
      rw [hs, hl] at hv
      simp only [List.map_cons, List.map_nil, List.mem_cons, List.not_mem_nil, or_false,
        or_self] at hv
      exact Or.inl hv
    · have hs1 : s.1 = (tighten (f x y) m ml).1 := by rw [hs]
      have hev : (⟨Step.eval, x, y, d, m, ml⟩ : Event K) ∈ log := by
        rw [hl]; exact List.mem_append.2 (Or.inl (eval_mem_headEvents f x y d m ml))
      intro v hv
      have hv2 : v ∈ (tighten (f x y) m ml).1 :: (headEvents f x y d m ml).map Event.min_ub := by
        rw [hl, hs1] at hv
        simp only [List.map_append, List.map_cons, List.map_nil, List.mem_cons,
          List.mem_append, List.not_mem_nil, or_false] at hv ⊢
        rcases hv with hv | hv | hv
        · exact Or.inl hv
        · exact Or.inr hv
        · exact Or.inl hv
      rcases hhd v hv2 with hv3 | hv3
      · exact Or.inl hv3
      · exact Or.inr ⟨_, hev, rfl, hv3⟩
    · have hev : (⟨Step.eval, x, y, d, m, ml⟩ : Event K) ∈ log := by
        rw [hl]
        simp only [List.mem_append]
        exact Or.inl (Or.inl (Or.inl (Or.inl (eval_mem_headEvents f x y d m ml))))
      have hR : ∀ v ∈ (tighten (f x y) m ml).1 :: (headEvents f x y d m ml).map Event.min_ub,
          v = m ∨ ∃ ev ∈ log, ev.step = Step.eval ∧ v = (f ev.x ev.y).right := by
        intro v hv
        rcases hhd v hv with hv3 | hv3
        · exact Or.inl hv3
        · exact Or.inr ⟨_, hev, rfl, hv3⟩
      have sub1 : ∀ ev ∈ l1, ev ∈ log := fun ev hev => by
        rw [hl]; simp only [List.mem_append]; tauto
      have sub2 : ∀ ev ∈ l2, ev ∈ log := fun ev hev => by
        rw [hl]; simp only [List.mem_append]; tauto
      have sub3 : ∀ ev ∈ l3, ev ∈ log := fun ev hev => by
        rw [hl]; simp only [List.mem_append]; tauto
      have sub4 : ∀ ev ∈ l4, ev ∈ log := fun ev hev => by
        rw [hl]; simp only [List.mem_append]; tauto
      have R0 := hR _ (List.mem_cons_self _ _)
      have P1 := fun v hv => lift _ l1 sub1 R0 v (ih _ _ _ _ _ _ _ e1 v hv)
      have P2 := fun v hv => lift _ l2 sub2 (P1 _ (List.mem_cons_self _ _)) v
        (ih _ _ _ _ _ _ _ e2 v hv)
      have P3 := fun v hv => lift _ l3 sub3 (P2 _ (List.mem_cons_self _ _)) v
        (ih _ _ _ _ _ _ _ e3 v hv)
      have P4 := fun v hv => lift _ l4 sub4 (P3 _ (List.mem_cons_self _ _)) v
        (ih _ _ _ _ _ _ _ e4 v hv)
      intro v hv
      rw [hl] at hv
      simp only [List.map_append, List.mem_cons, List.mem_append] at hv
      rcases hv with hv | (((hv | hv) | hv) | hv) | hv
      · exact P4 v (hv ▸ List.mem_cons_self _ _)
      · exact hR v (List.mem_cons_of_mem _ hv)
      · exact P1 v (List.mem_cons_of_mem _ hv)
      · exact P2 v (List.mem_cons_of_mem _ hv)
      · exact P3 v (List.mem_cons_of_mem _ hv)
      · exact P4 v (List.mem_cons_of_mem _ hv)

/-- C4 (the upper bound only takes realized values).  After a run of `minimize` that
returns, `min_ub` is its initial value or equals `f(b).right` for a box `b` on which the
search evaluated `f` and which is the root box or a descendant of it under repeated
`split_box` quadrant steps; the same holds of the value of `min_ub` after every logged
step of the run. -/
theorem realized_bound (f : itvfun K) (n : Nat) (x y : interval K) (t m : Dbl K)
    (ml : minimizer_list K) (s : Store K) (log : List (Event K))
    (hrun : minimizeLog f n x y t m ml 0 = some (s, log)) :
    minimize f n x y t m ml = some s ∧
    ∀ v ∈ s.1 :: log.map Event.min_ub,
      v = m ∨ ∃ ev ∈ log, ev.step = Step.eval ∧ v = (f ev.x ev.y).right ∧
        ∃ path : List Quadrant, path.length = ev.depth ∧ (ev.x, ev.y) = descend path x y := by
  refine ⟨minimize_of_minimizeLog f n x y t m ml 0 s log hrun, ?_⟩
  intro v hv
  rcases minimizeLog_realized f t n x y m ml 0 s log hrun v hv with h | ⟨ev, hev, h1, h2⟩
  · exact Or.inl h
  · exact Or.inr ⟨ev, hev, h1, h2, events_descend f n x y t m ml s log hrun ev hev⟩

/-- Witness of C4: the search for `x^2 + y^2` over `[-1,1] x [-1,1]` with threshold
`1/2`, from `min_ub = +infinity` and the empty list. -/
theorem realized_bound_witness :
    ∃ (s : Store ℚ) (log : List (Event ℚ)),
      minimizeLog sumsq 3 ⟨-1, 1⟩ ⟨-1, 1⟩ (Dbl.fin (1 / 2)) Dbl.pinf [] 0 = some (s, log) ∧
      minimize sumsq 3 ⟨-1, 1⟩ ⟨-1, 1⟩ (Dbl.fin (1 / 2)) Dbl.pinf [] = some s ∧
      ∀ v ∈ s.1 :: log.map Event.min_ub,
        v = Dbl.pinf ∨ ∃ ev ∈ log, ev.step = Step.eval ∧ v = (sumsq ev.x ev.y).right ∧
          ∃ path : List Quadrant,
            path.length = ev.depth ∧ (ev.x, ev.y) = descend path ⟨-1, 1⟩ ⟨-1, 1⟩ := by
  have hsome : (minimizeLog (K := ℚ) sumsq 3 ⟨-1, 1⟩ ⟨-1, 1⟩ (Dbl.fin (1 / 2)) Dbl.pinf []
      0).isSome = true := by decide!
  obtain ⟨⟨s, log⟩, h⟩ := Option.isSome_iff_exists.1 hsome
  exact ⟨s, log, h, realized_bound sumsq 3 ⟨-1, 1⟩ ⟨-1, 1⟩ (Dbl.fin (1 / 2)) Dbl.pinf []
    s log h⟩

/-! ## `split_box` and the order of the recursion (C5) -/

omit [LinearOrderedField K] in
theorem evalBoxesAt_append (k : Nat) (l1 l2 : List (Event K)) :
    evalBoxesAt k (l1 ++ l2) = evalBoxesAt k l1 ++ evalBoxesAt k l2 := by
  simp only [evalBoxesAt, List.filter_append, List.map_append]

theorem evalBoxesAt_headEvents (f : itvfun K) (x y : interval K) (d : Nat) (m : Dbl K)
    (ml : minimizer_list K) (k : Nat) :
    evalBoxesAt k (headEvents f x y d m ml) = if d = k then [(x, y)] else [] := by
  unfold headEvents evalBoxesAt
  by_cases hlt : (f x y).right < m <;> by_cases hk : d = k <;>
    simp [hlt, hk, List.filter_cons]

theorem evalBoxesAt_run (f : itvfun K) (t : Dbl K) (n : Nat) :
    ∀ (x y : interval K) (m : Dbl K) (ml : minimizer_list K) (d : Nat) (s : Store K)
      (log : List (Event K)), minimizeLog f n x y t m ml d = some (s, log) →
      evalBoxesAt d log = [(x, y)] ∧ ∀ k < d, evalBoxesAt k log = [] := by
  induction n with
  | zero =>
    intro x y m ml d s log h
    exact absurd h (by simp [minimizeLog])
  | succ n ih =>
    intro x y m ml d s log h
    rcases minimizeLog_cases f n x y t m ml d s log h with
      ⟨_, _, hl⟩ | ⟨_, _, _, hl⟩ | ⟨_, _, s1, l1, s2, l2, s3, l3, l4, e1, e2, e3, e4, hl⟩
    · rw [hl]
      refine ⟨by simp [evalBoxesAt, List.filter_cons], fun k hk => ?_⟩
      have : ¬ d = k := by omega
      simp [evalBoxesAt, List.filter_cons, this]
    · rw [hl]
      refine ⟨?_, fun k hk => ?_⟩
      · rw [evalBoxesAt_append, evalBoxesAt_headEvents, if_pos rfl]
        simp [evalBoxesAt, List.filter_cons]
      · have : ¬ d = k := by omega
        rw [evalBoxesAt_append, evalBoxesAt_headEvents, if_neg this]
        simp [evalBoxesAt, List.filter_cons]
    · have r1 := (ih _ _ _ _ _ _ _ e1).2
      have r2 := (ih _ _ _ _ _ _ _ e2).2
      have r3 := (ih _ _ _ _ _ _ _ e3).2
      have r4 := (ih _ _ _ _ _ _ _ e4).2
      rw [hl]
      refine ⟨?_, fun k hk => ?_⟩
      · rw [evalBoxesAt_append, evalBoxesAt_append, evalBoxesAt_append, evalBoxesAt_append,
          evalBoxesAt_headEvents, if_pos rfl, r1 d (by omega), r2 d (by omega),
          r3 d (by omega), r4 d (by omega)]
        rfl
      · have : ¬ d = k := by omega
        rw [evalBoxesAt_append, evalBoxesAt_append, evalBoxesAt_append, evalBoxesAt_append,
          evalBoxesAt_headEvents, if_neg this, r1 k (by omega), r2 k (by omega),
          r3 k (by omega), r4 k (by omega)]
        rfl

/-- C5 (`split_box` output and order of the recursion).  For every pair of intervals
`split_box` returns `xl = [x.left, x.mid]`, `xr = [x.mid, x.right]`,
`yl = [y.left, y.mid]`, `yr = [y.mid, y.right]` with `mid = (left+right)/2`.  A call of
`minimize` that is neither prune-rejected nor a leaf is the sequence of the four
recursive calls on `(xl,yl)`, `(xl,yr)`, `(xr,yl)`, `(xr,yr)`, each started from the
state its predecessor returned; and in the log of such a call that returns, the boxes
evaluated one level below the call are exactly these four, in that order. -/
theorem split_box_spec (x y : interval K) :
    (split_box x y).xl = ⟨x.left, x.mid⟩ ∧ (split_box x y).xr = ⟨x.mid, x.right⟩ ∧
    (split_box x y).yl = ⟨y.left, y.mid⟩ ∧ (split_box x y).yr = ⟨y.mid, y.right⟩ ∧
    x.mid = (x.left + x.right) / 2 ∧ y.mid = (y.left + y.right) / 2 ∧
    (∀ (f : itvfun K) (n : Nat) (t m : Dbl K) (ml : minimizer_list K),
      ¬ (f x y).left > m → ¬ Dbl.fin x.width ≤ t →
      minimize f (n + 1) x y t m ml
        = (minimize f n ⟨x.left, x.mid⟩ ⟨y.left, y.mid⟩ t
            (tighten (f x y) m ml).1 (tighten (f x y) m ml).2).bind fun s1 =>
          (minimize f n ⟨x.left, x.mid⟩ ⟨y.mid, y.right⟩ t s1.1 s1.2).bind fun s2 =>
          (minimize f n ⟨x.mid, x.right⟩ ⟨y.left, y.mid⟩ t s2.1 s2.2).bind fun s3 =>
          minimize f n ⟨x.mid, x.right⟩ ⟨y.mid, y.right⟩ t s3.1 s3.2) ∧
    (∀ (f : itvfun K) (n : Nat) (t m : Dbl K) (ml : minimizer_list K) (d : Nat)
      (s : Store K) (log : List (Event K)),
      ¬ (f x y).left > m → ¬ Dbl.fin x.width ≤ t →
      minimizeLog f n x y t m ml d = some (s, log) →
      evalBoxesAt (d + 1) log
        = [(⟨x.left, x.mid⟩, ⟨y.left, y.mid⟩), (⟨x.left, x.mid⟩, ⟨y.mid, y.right⟩),
           (⟨x.mid, x.right⟩, ⟨y.left, y.mid⟩), (⟨x.mid, x.right⟩, ⟨y.mid, y.right⟩)]) := by
  refine ⟨rfl, rfl, rfl, rfl, rfl, rfl, ?_, ?_⟩
  · intro f n t m ml h1 h2
    exact minimize_split f n x y t m ml h1 h2
  · intro f n t m ml d s log h1 h2 hrun
    cases n with
    | zero => exact absurd hrun (by simp [minimizeLog])
    | succ n =>
      rcases minimizeLog_cases f n x y t m ml d s log hrun with
        ⟨h, _, _⟩ | ⟨_, h, _, _⟩ | ⟨_, _, s1, l1, s2, l2, s3, l3, l4, e1, e2, e3, e4, hl⟩
      · exact absurd h h1
      · exact absurd h h2
      · rw [hl, evalBoxesAt_append, evalBoxesAt_append, evalBoxesAt_append,
          evalBoxesAt_append, evalBoxesAt_headEvents]
        rw [if_neg (by omega), (evalBoxesAt_run f t n _ _ _ _ _ _ _ e1).1,
          (evalBoxesAt_run f t n _ _ _ _ _ _ _ e2).1, (evalBoxesAt_run f t n _ _ _ _ _ _ _ e3).1,
          (evalBoxesAt_run f t n _ _ _ _ _ _ _ e4).1]
        rfl

/-! ## Subdivision exactness (C6) -/

/-- C6 (subdivision exactness).  For a box with `x.left ≤ x.right` and
`y.left ≤ y.right`, a point lies in the box if and only if it lies in at least one of
the four sub-boxes built from `split_box`, and a point lying in two different sub-boxes
has its x-coordinate equal to `x.mid` or its y-coordinate equal to `y.mid`. -/
theorem split_box_tiles (x y : interval K) (hx : x.left ≤ x.right) (hy : y.left ≤ y.right)
    (px py : K) :
    (inBox x y px py ↔ ∃ q : Quadrant, inBox (child q x y).1 (child q x y).2 px py) ∧
    (∀ q q' : Quadrant, q ≠ q' →
      inBox (child q x y).1 (child q x y).2 px py →
      inBox (child q' x y).1 (child q' x y).2 px py →
      px = x.mid ∨ py = y.mid) := by
  have h1 : x.left ≤ (x.left + x.right) / 2 := by linarith
  have h2 : (x.left + x.right) / 2 ≤ x.right := by linarith
  have h3 : y.left ≤ (y.left + y.right) / 2 := by linarith
  have h4 : (y.left + y.right) / 2 ≤ y.right := by linarith
  refine ⟨⟨?_, ?_⟩, ?_⟩
  · rintro ⟨⟨hxl, hxr⟩, ⟨hyl, hyr⟩⟩
    rcases le_total px x.mid with hpx | hpx <;> rcases le_total py y.mid with hpy | hpy
    · exact ⟨Quadrant.ll, ⟨hxl, hpx⟩, ⟨hyl, hpy⟩⟩
    · exact ⟨Quadrant.lr, ⟨hxl, hpx⟩, ⟨hpy, hyr⟩⟩
    · exact ⟨Quadrant.rl, ⟨hpx, hxr⟩, ⟨hyl, hpy⟩⟩
    · exact ⟨Quadrant.rr, ⟨hpx, hxr⟩, ⟨hpy, hyr⟩⟩
  · rintro ⟨q, hq⟩
    cases q <;>
      simp only [child, split_box, inBox, interval.contains, interval.mid] at hq ⊢ <;>
      obtain ⟨⟨a1, a2⟩, ⟨a3, a4⟩⟩ := hq <;>
      exact ⟨⟨by linarith, by linarith⟩, ⟨by linarith, by linarith⟩⟩
  · intro q q' hne hq hq'
    cases q <;> cases q' <;>
      first
        | exact absurd rfl hne
        | (simp only [child, split_box, inBox, interval.contains] at hq hq'
           obtain ⟨⟨a1, a2⟩, ⟨a3, a4⟩⟩ := hq
           obtain ⟨⟨b1, b2⟩, ⟨b3, b4⟩⟩ := hq'
           first
             | exact Or.inl (le_antisymm (by assumption) (by assumption))
             | exact Or.inr (le_antisymm (by assumption) (by assumption)))

/-- Witness of C6: the box `[0,2] x [0,4]` and the point `(1, 1/2)` on the common edge
of its two lower quadrants. -/
theorem split_box_tiles_witness :
    (inBox (K := ℚ) ⟨0, 2⟩ ⟨0, 4⟩ 1 (1 / 2) ↔
      ∃ q : Quadrant, inBox (child q ⟨0, 2⟩ ⟨0, 4⟩).1 (child q (⟨0, 2⟩ : interval ℚ) ⟨0, 4⟩).2
        1 (1 / 2)) ∧
    (∀ q q' : Quadrant, q ≠ q' →
      inBox (child q ⟨0, 2⟩ ⟨0, 4⟩).1 (child q (⟨0, 2⟩ : interval ℚ) ⟨0, 4⟩).2 1 (1 / 2) →
      inBox (child q' ⟨0, 2⟩ ⟨0, 4⟩).1 (child q' (⟨0, 2⟩ : interval ℚ) ⟨0, 4⟩).2 1 (1 / 2) →
      (1 : ℚ) = (⟨0, 2⟩ : interval ℚ).mid ∨ (1 / 2 : ℚ) = (⟨0, 4⟩ : interval ℚ).mid) :=
  split_box_tiles ⟨0, 2⟩ ⟨0, 4⟩ (by decide!) (by decide!) 1 (1 / 2)

/-! ## Exact and rounded midpoints -/

theorem split_box_width (x y : interval K) :
    (split_box x y).xl.width = x.width / 2 ∧ (split_box x y).xr.width = x.width / 2 ∧
    (split_box x y).yl.width = y.width / 2 ∧ (split_box x y).yr.width = y.width / 2 := by
  simp only [split_box, interval.width, interval.mid]
  refine ⟨?_, ?_, ?_, ?_⟩ <;> ring

theorem halve_pow (w : K) (n : Nat) : w / 2 / 2 ^ n = w / 2 ^ (n + 1) := by
  rw [div_div, pow_succ']

/-- A budget of `n + 1` levels suffices as soon as `x.width / 2^n ≤ threshold`, and the
run then stays within `n` levels below the call. -/
theorem minimizeLog_returns (f : itvfun K) (t : Dbl K) (n : Nat) :
    ∀ (x y : interval K) (m : Dbl K) (ml : minimizer_list K) (d : Nat),
      Dbl.fin (x.width / 2 ^ n) ≤ t →
      ∃ (s : Store K) (log : List (Event K)),
        minimizeLog f (n + 1) x y t m ml d = some (s, log) ∧ ∀ ev ∈ log, ev.depth ≤ d + n := by
  induction n with
  | zero =>
    intro x y m ml d hw
    rw [pow_zero, div_one] at hw
    by_cases h1 : (f x y).left > m
    · refine ⟨_, _, minimizeLog_reject f 0 x y t m ml d h1, ?_⟩
      intro ev hev
      simp only [List.mem_cons, List.mem_singleton, List.not_mem_nil, or_false] at hev
      rcases hev with he | he <;> rw [he] <;> exact Nat.le_add_right _ _
    · refine ⟨_, _, minimizeLog_leaf f 0 x y t m ml d h1 hw, ?_⟩
      intro ev hev
      rcases List.mem_append.1 hev with hev | hev
      · rcases mem_headEvents f x y d m ml ev hev with he | ⟨_, he⟩ <;> rw [he] <;>
          exact Nat.le_add_right _ _
      · rw [List.mem_singleton.1 hev]; exact Nat.le_add_right _ _
  | succ n ih =>
    intro x y m ml d hw
    have hhd : ∀ ev ∈ headEvents f x y d m ml, ev.depth ≤ d + (n + 1) := by
      intro ev hev
      rcases mem_headEvents f x y d m ml ev hev with he | ⟨_, he⟩ <;> rw [he] <;>
        exact Nat.le_add_right _ _
    by_cases h1 : (f x y).left > m
    · refine ⟨_, _, minimizeLog_reject f (n + 1) x y t m ml d h1, ?_⟩
      intro ev hev
      simp only [List.mem_cons, List.mem_singleton, List.not_mem_nil, or_false] at hev
      rcases hev with he | he <;> rw [he] <;> exact Nat.le_add_right _ _
    · by_cases h2 : Dbl.fin x.width ≤ t
      · refine ⟨_, _, minimizeLog_leaf f (n + 1) x y t m ml d h1 h2, ?_⟩
        intro ev hev
        rcases List.mem_append.1 hev with hev | hev
        · exact hhd ev hev
        · rw [List.mem_singleton.1 hev]; exact Nat.le_add_right _ _
      · have hl : Dbl.fin ((split_box x y).xl.width / 2 ^ n) ≤ t := by
          rw [(split_box_width x y).1, halve_pow]; exact hw
        have hr : Dbl.fin ((split_box x y).xr.width / 2 ^ n) ≤ t := by
          rw [(split_box_width x y).2.1, halve_pow]; exact hw
        obtain ⟨s1, l1, e1, d1⟩ := ih (split_box x y).xl (split_box x y).yl
          (tighten (f x y) m ml).1 (tighten (f x y) m ml).2 (d + 1) hl
        obtain ⟨s2, l2, e2, d2⟩ := ih (split_box x y).xl (split_box x y).yr s1.1 s1.2 (d + 1) hl
        obtain ⟨s3, l3, e3, d3⟩ := ih (split_box x y).xr (split_box x y).yl s2.1 s2.2 (d + 1) hr
        obtain ⟨s4, l4, e4, d4⟩ := ih (split_box x y).xr (split_box x y).yr s3.1 s3.2 (d + 1) hr
        refine ⟨s4, headEvents f x y d m ml ++ l1 ++ l2 ++ l3 ++ l4, ?_, ?_⟩
        · rw [minimizeLog_split f (n + 1) x y t m ml d h1 h2, e1, Option.some_bind, e2,
            Option.some_bind, e3, Option.some_bind, e4, Option.some_bind]
        · intro ev hev
          simp only [List.mem_append] at hev
          rcases hev with (((hev | hev) | hev) | hev) | hev
          · exact hhd ev hev
          · have := d1 ev hev; omega
          · have := d2 ev hev; omega
          · have := d3 ev hev; omega
          · have := d4 ev hev; omega

theorem exists_halving [Archimedean K] (w : K) (t : Dbl K) (ht : Dbl.fin 0 < t) :
    ∃ n : Nat, Dbl.fin (w / 2 ^ n) ≤ t := by
  cases t with
  | ninf => exact absurd ht (Dbl.not_lt_ninf _)
  | pinf => exact ⟨0, Dbl.le_pinf _⟩
  | fin v =>
    rw [Dbl.fin_lt_fin] at ht
    obtain ⟨n, hn⟩ := pow_unbounded_of_one_lt (w / v) (one_lt_two : (1 : K) < 2)
    refine ⟨n, ?_⟩
    rw [Dbl.fin_le_fin]
    have h2 : (0 : K) < 2 ^ n := pow_pos two_pos n
    rw [div_lt_iff₀ ht] at hn
    rw [div_le_iff₀ h2]
    linarith [mul_comm (2 ^ n : K) v]

theorem sqr_sound (x : interval K) (p : K) (h : x.contains p) :
    x.sqr.left ≤ p ^ 2 ∧ p ^ 2 ≤ x.sqr.right := by
  obtain ⟨hl, hr⟩ := h
  unfold interval.sqr
  by_cases h0 : 0 ≤ x.left
  · rw [if_pos h0]
    exact ⟨pow_le_pow_left₀ h0 hl 2, pow_le_pow_left₀ (h0.trans hl) hr 2⟩
  · rw [if_neg h0]
    by_cases h1 : x.right ≤ 0
    · rw [if_pos h1]
      constructor
      · show x.right ^ 2 ≤ p ^ 2
        nlinarith
      · show p ^ 2 ≤ x.left ^ 2
        nlinarith
    · rw [if_neg h1]
      refine ⟨sq_nonneg p, ?_⟩
      show p ^ 2 ≤ max (x.left ^ 2) (x.right ^ 2)
      rcases le_total 0 p with hp | hp
      · exact le_max_of_le_right (pow_le_pow_left₀ hp hr 2)
      · refine le_max_of_le_left ?_
        nlinarith

theorem sumsq_sound : inclusionSound (K := K) (fun px py => px ^ 2 + py ^ 2) sumsq := by
  intro x y px py h
  simp only [sumsq, interval.add, Dbl.fin_le_fin]
  exact ⟨add_le_add (sqr_sound x px h.1).1 (sqr_sound y py h.2).1,
    add_le_add (sqr_sound x px h.1).2 (sqr_sound y py h.2).2⟩

/-- C9 (worked example).  For `f(x,y) = x^2 + y^2` with its natural interval extension
`sumsq`, root box `[-1,1] x [-1,1]`, threshold `1/10`, `min_ub = +infinity` and an empty
list, `minimize` returns (with a budget of 6 levels or more) a state with
`0 ≤ min_ub ≤ 0.02`, in fact `min_ub = 1/128`, and a list with an entry whose box
contains the point `(0,0)`. -/
theorem sumsq_worked_example :
    inclusionSound (K := ℚ) (fun px py => px ^ 2 + py ^ 2) sumsq ∧
    ∃ s : Store ℚ,
      (∀ k : Nat, minimize sumsq (6 + k) ⟨-1, 1⟩ ⟨-1, 1⟩ (Dbl.fin (1 / 10)) Dbl.pinf []
        = some s) ∧
      Dbl.fin 0 ≤ s.1 ∧ s.1 ≤ Dbl.fin (2 / 100) ∧ s.1 = Dbl.fin (1 / 128) ∧
      ∃ e ∈ s.2, inBox e.x e.y 0 0 := by
  refine ⟨sumsq_sound, ?_⟩
  have h : ((minimize (K := ℚ) sumsq 6 ⟨-1, 1⟩ ⟨-1, 1⟩ (Dbl.fin (1 / 10)) Dbl.pinf []).any
      fun s => decide (Dbl.fin 0 ≤ s.1 ∧ s.1 ≤ Dbl.fin (2 / 100) ∧ s.1 = Dbl.fin (1 / 128) ∧
        ∃ e ∈ s.2, inBox e.x e.y 0 0)) = true := by decide!
  cases hmin : minimize (K := ℚ) sumsq 6 ⟨-1, 1⟩ ⟨-1, 1⟩ (Dbl.fin (1 / 10)) Dbl.pinf [] with
  | none =>
    rw [hmin] at h
    exact absurd h (by simp)
  | some s =>
    rw [hmin] at h
    simp only [Option.any_some, decide_eq_true_eq] at h
    exact ⟨s, fun k => minimize_fuel_add sumsq 6 k _ _ _ _ _ s hmin, h⟩

/-! ## Invalid input (C10) -/

theorem length_insert (ml : minimizer_list K) (e : minimizer K) :
    (ml.insert e).length = ml.length + 1 := by
  unfold minimizer_list.insert
  rw [List.length_append, List.length_cons, ← Nat.add_assoc, ← List.length_append,
    List.takeWhile_append_dropWhile]

/-- With a non-positive threshold, the search for `x^2 + y^2` over a box `[0,a] x [0,b]`
with `0 < a` and `0 ≤ b` subdivides for ever: no recursion budget suffices. -/
theorem sumsq_nonpos_threshold_diverges (t : Dbl K) (ht : t ≤ Dbl.fin 0) (n : Nat) :
    ∀ (x y : interval K) (m : Dbl K) (ml : minimizer_list K),
      x.left = 0 → y.left = 0 → 0 < x.right → 0 ≤ y.right → Dbl.fin 0 ≤ m →
      minimize sumsq n x y t m ml = none := by
  induction n with
  | zero => intros; rfl
  | succ n ih =>
    intro x y m ml hx hy hxr hyr hm
    have hF : sumsq x y = ⟨Dbl.fin 0, Dbl.fin (x.right ^ 2 + y.right ^ 2)⟩ := by
      simp [sumsq, interval.add, interval.sqr, hx, hy]
    have h1 : ¬ (sumsq x y).left > m := by
      rw [hF]; exact not_lt.2 hm
    have h2 : ¬ Dbl.fin x.width ≤ t := by
      intro h
      have h3 := le_trans h ht
      rw [Dbl.fin_le_fin] at h3
      simp only [interval.width, hx] at h3
      linarith
    rw [minimize_split sumsq n x y t m ml h1 h2]
    have hm' : Dbl.fin 0 ≤ (tighten (sumsq x y) m ml).1 := by
      rw [tighten_fst, hF]
      exact le_min hm ((Dbl.fin_le_fin _ _).2 (by positivity))
    rw [ih (split_box x y).xl (split_box x y).yl _ _ hx hy
      (by simp only [split_box, interval.mid, hx]; linarith)
      (by simp only [split_box, interval.mid, hy]; linarith) hm']
    rfl

/-- C10 as stated fails: `minimize` rejects nothing.  For `x^2 + y^2`, from
`min_ub = +infinity` and the empty list: a root box of zero x-width with threshold `0`
is inserted and `min_ub` becomes `1`; a root box of negative x-width with threshold `-1`
is inserted as well; the unit box with threshold `+infinity` is inserted and `min_ub`
becomes `2`; and for the unit box with threshold `0` the call never returns. -/
theorem invalid_input_not_rejected :
    (∀ k : Nat, minimize (K := ℚ) sumsq (1 + k) ⟨0, 0⟩ ⟨0, 1⟩ (Dbl.fin 0) Dbl.pinf []
      = some (Dbl.fin 1, [⟨⟨0, 0⟩, ⟨0, 1⟩, Dbl.fin 0, Dbl.fin 1⟩])) ∧
    (∀ k : Nat, minimize (K := ℚ) sumsq (1 + k) ⟨1, 0⟩ ⟨0, 1⟩ (Dbl.fin (-1)) Dbl.pinf []
      = some (Dbl.fin 1, [⟨⟨1, 0⟩, ⟨0, 1⟩, Dbl.fin 1, Dbl.fin 1⟩])) ∧
    (∀ k : Nat, minimize (K := ℚ) sumsq (1 + k) ⟨0, 1⟩ ⟨0, 1⟩ Dbl.pinf Dbl.pinf []
      = some (Dbl.fin 2, [⟨⟨0, 1⟩, ⟨0, 1⟩, Dbl.fin 0, Dbl.fin 2⟩])) ∧
    (∀ n : Nat, minimize (K := ℚ) sumsq n ⟨0, 1⟩ ⟨0, 1⟩ (Dbl.fin 0) Dbl.pinf [] = none) := by
  refine ⟨fun k => ?_, fun k => ?_, fun k => ?_, fun n => ?_⟩
  · exact minimize_fuel_add sumsq 1 k _ _ _ _ _ _ (by decide!)
  · exact minimize_fuel_add sumsq 1 k _ _ _ _ _ _ (by decide!)
  · exact minimize_fuel_add sumsq 1 k _ _ _ _ _ _ (by decide!)
  · exact sumsq_nonpos_threshold_diverges (Dbl.fin 0) le_rfl n _ _ _ _ rfl rfl
      (by decide!) (by decide!) (Dbl.le_pinf _)

/-- C10, amended.  `minimize` does not validate its input: whatever the threshold and the
box (a non-positive or infinite threshold and a box of zero or negative width included),
a call first evaluates the objective on the box.  It returns at once with `min_ub` and
the list unchanged when `f(x,y).left > min_ub` (the prune test).  Otherwise, when
`x.width ≤ threshold`, it returns with `min_ub` lowered to the smaller of `min_ub` and
`f(x,y).right` and with the box inserted in the list, a state different from the one
before the call; and when `x.width > threshold` it subdivides the box. -/
theorem minimize_no_validation (f : itvfun K) (n : Nat) (x y : interval K) (t m : Dbl K)
    (ml : minimizer_list K) :
    ((f x y).left > m → minimize f (n + 1) x y t m ml = some (m, ml)) ∧
    (¬ (f x y).left > m → Dbl.fin x.width ≤ t →
      ∃ s : Store K, minimize f (n + 1) x y t m ml = some s ∧
        s.1 = min m (f x y).right ∧
        (⟨x, y, (f x y).left, (f x y).right⟩ : minimizer K) ∈ s.2 ∧ s ≠ (m, ml)) ∧
    (¬ (f x y).left > m → ¬ Dbl.fin x.width ≤ t →
      minimize f (n + 1) x y t m ml
        = (minimize f n (split_box x y).xl (split_box x y).yl t
              (tighten (f x y) m ml).1 (tighten (f x y) m ml).2).bind fun s1 =>
          (minimize f n (split_box x y).xl (split_box x y).yr t s1.1 s1.2).bind fun s2 =>
          (minimize f n (split_box x y).xr (split_box x y).yl t s2.1 s2.2).bind fun s3 =>
          minimize f n (split_box x y).xr (split_box x y).yr t s3.1 s3.2) := by
  refine ⟨minimize_reject f n x y t m ml, ?_, minimize_split f n x y t m ml⟩
  intro h1 h2
  refine ⟨_, minimize_leaf f n x y t m ml h1 h2, tighten_fst _ _ _,
    (mem_insert _ _ _).2 (Or.inl rfl), ?_⟩
  intro heq
  have hfst := congrArg Prod.fst heq
  have hsnd := congrArg (fun p => p.2.length) heq
  simp only [length_insert] at hfst hsnd
  by_cases hlt : (f x y).right < m
  · rw [tighten_of_lt _ _ _ hlt] at hfst
    exact absurd hfst (ne_of_lt hlt)
  · rw [tighten_of_not_lt _ _ _ hlt] at hsnd
    simp at hsnd

/-! ## Final merge (C11) -/

theorem mem_gather (l1 l2 : minimizer_list K) (e : minimizer K) :
    e ∈ l2.foldl (fun acc e => minimizer_list.insert acc e) l1 ↔ e ∈ l1 ∨ e ∈ l2 := by
  induction l2 generalizing l1 with
  | nil => simp
  | cons a l2 ih =>
    rw [List.foldl_cons, ih, mem_insert, List.mem_cons]
    tauto

/-- C11 (final merge).  When the results of two processes are gathered, the merged upper
bound is the minimum of the two upper bounds, the merged list holds only entries of the
two lists and none whose `lb` is greater than that minimum, and it keeps every entry of
either list whose `lb` is not greater than that minimum. -/
theorem merge_results_spec (p1 p2 : Store K) :
    (merge_results p1 p2).1 = min p1.1 p2.1 ∧
    (∀ e ∈ (merge_results p1 p2).2, (e ∈ p1.2 ∨ e ∈ p2.2) ∧ ¬ e.lb > min p1.1 p2.1) ∧
    (∀ e : minimizer K, e ∈ p1.2 ∨ e ∈ p2.2 → e.lb ≤ min p1.1 p2.1 →
      e ∈ (merge_results p1 p2).2) := by
  refine ⟨rfl, ?_, ?_⟩
  · intro e he
    simp only [merge_results, List.mem_filter, mem_gather, decide_eq_true_eq] at he
    exact he
  · intro e he hle
    simp only [merge_results, List.mem_filter, mem_gather, decide_eq_true_eq]
    exact ⟨he, not_lt.2 hle⟩

/-! ## The purge (C12) -/

/-- C12 (the purge discards only provably suboptimal entries), evaluated at a failing
input.  In the third sub-call of the search for `ramp` over `[-2,2] x [-2,2]` with
threshold `2`, on the box `[0,2] x [-2,0]` with `min_ub = 2` and the two entries of
`lb = 0` in the list, the bound is tightened to `f(x,y).right = 0` and both entries are
erased although their `lb` is not greater than the new `min_ub`: the purge keeps the
entries with `lb < min_ub` only. -/
theorem purge_discards_equal_lb :
    (rampItv (K := ℚ) ⟨0, 2⟩ ⟨-2, 0⟩).right < Dbl.fin 2 ∧
    tighten (K := ℚ) (rampItv ⟨0, 2⟩ ⟨-2, 0⟩) (Dbl.fin 2)
        [⟨⟨-2, 0⟩, ⟨-2, 0⟩, Dbl.fin 0, Dbl.fin 2⟩, ⟨⟨-2, 0⟩, ⟨0, 2⟩, Dbl.fin 0, Dbl.fin 2⟩]
      = (Dbl.fin 0, []) ∧
    (∀ e ∈ ([⟨⟨-2, 0⟩, ⟨-2, 0⟩, Dbl.fin 0, Dbl.fin 2⟩,
        ⟨⟨-2, 0⟩, ⟨0, 2⟩, Dbl.fin 0, Dbl.fin 2⟩] : minimizer_list ℚ), e.lb ≤ Dbl.fin 0) ∧
    (∀ k : Nat, minimize (K := ℚ) rampItv (1 + k) ⟨0, 2⟩ ⟨-2, 0⟩ (Dbl.fin 2) (Dbl.fin 2)
        [⟨⟨-2, 0⟩, ⟨-2, 0⟩, Dbl.fin 0, Dbl.fin 2⟩, ⟨⟨-2, 0⟩, ⟨0, 2⟩, Dbl.fin 0, Dbl.fin 2⟩]
      = some (Dbl.fin 0, [⟨⟨0, 2⟩, ⟨-2, 0⟩, Dbl.fin 0, Dbl.fin 0⟩])) ∧
    (∀ (fxy : interval (Dbl ℚ)) (m : Dbl ℚ) (ml : minimizer_list ℚ), fxy.right < m →
      (tighten fxy m ml).2 = ml.takeWhile (fun e => decide (e.lb < fxy.right))) := by
  refine ⟨by decide!, by decide!, by decide!, fun k => ?_, fun fxy m ml h => ?_⟩
  · exact minimize_fuel_add rampItv 1 k _ _ _ _ _ _ (by decide!)
  · rw [tighten_of_lt fxy m ml h]

/-! ## Prune-reject (C13) -/

/-- C13 (prune-reject leaves the state unchanged).  For every box with
`f(x,y).left > min_ub`, `minimize` returns with `min_ub` and the minimizer list exactly
as they were before the call, and without recursing: the log of the call holds the
evaluation of the box and the rejection, nothing else. -/
theorem prune_reject_unchanged (f : itvfun K) (n : Nat) (x y : interval K) (t m : Dbl K)
    (ml : minimizer_list K) (d : Nat) (h : (f x y).left > m) :
    minimize f (n + 1) x y t m ml = some (m, ml) ∧
    minimizeLog f (n + 1) x y t m ml d
      = some ((m, ml),
          [⟨Step.eval, x, y, d, m, ml⟩, ⟨Step.reject, x, y, d, m, ml⟩]) :=
  ⟨minimize_reject f n x y t m ml h, minimizeLog_reject f n x y t m ml d h⟩

/-- Witness of C13: `x^2 + y^2` over the box `[1,2] x [1,2]`, whose lower bound `2`
exceeds `min_ub = 1`, with one entry in the list. -/
theorem prune_reject_unchanged_witness :
    (sumsq (K := ℚ) ⟨1, 2⟩ ⟨1, 2⟩).left > Dbl.fin 1 ∧
    minimize (K := ℚ) sumsq (0 + 1) ⟨1, 2⟩ ⟨1, 2⟩ (Dbl.fin (1 / 2)) (Dbl.fin 1)
        [⟨⟨0, 1⟩, ⟨0, 1⟩, Dbl.fin 0, Dbl.fin 2⟩]
      = some (Dbl.fin 1, [⟨⟨0, 1⟩, ⟨0, 1⟩, Dbl.fin 0, Dbl.fin 2⟩]) ∧
    minimizeLog (K := ℚ) sumsq (0 + 1) ⟨1, 2⟩ ⟨1, 2⟩ (Dbl.fin (1 / 2)) (Dbl.fin 1)
        [⟨⟨0, 1⟩, ⟨0, 1⟩, Dbl.fin 0, Dbl.fin 2⟩] 0
      = some ((Dbl.fin 1, [⟨⟨0, 1⟩, ⟨0, 1⟩, Dbl.fin 0, Dbl.fin 2⟩]),
          [⟨Step.eval, ⟨1, 2⟩, ⟨1, 2⟩, 0, Dbl.fin 1, [⟨⟨0, 1⟩, ⟨0, 1⟩, Dbl.fin 0, Dbl.fin 2⟩]⟩,
           ⟨Step.reject, ⟨1, 2⟩, ⟨1, 2⟩, 0, Dbl.fin 1,
             [⟨⟨0, 1⟩, ⟨0, 1⟩, Dbl.fin 0, Dbl.fin 2⟩]⟩]) :=
  ⟨by decide!, prune_reject_unchanged sumsq 0 ⟨1, 2⟩ ⟨1, 2⟩ (Dbl.fin (1 / 2)) (Dbl.fin 1)
    [⟨⟨0, 1⟩, ⟨0, 1⟩, Dbl.fin 0, Dbl.fin 2⟩] 0 (by decide!)⟩

/-! ## Leaf insertion (C14) -/

theorem perm_insert (ml : minimizer_list K) (e : minimizer K) :
    (ml.insert e).Perm (e :: ml) := by
  unfold minimizer_list.insert
  refine List.perm_middle.trans ?_
  rw [List.takeWhile_append_dropWhile]

/-- C14 (leaf insertion).  For every box with `x.width ≤ threshold` that is not
prune-rejected, `minimize` returns without subdividing (every logged step belongs to the
call itself), and the returned list contains the entry
`(x, y, lb = f(x,y).left, ub = f(x,y).right)`: it is the list left by the tightening
block with this entry added as one more element, whatever entries, of the same `lb` or
not, the list already holds. -/
theorem leaf_insertion (f : itvfun K) (n : Nat) (x y : interval K) (t m : Dbl K)
    (ml : minimizer_list K) (d : Nat) (h1 : ¬ (f x y).left > m)
    (h2 : Dbl.fin x.width ≤ t) :
    ∃ (s : Store K) (log : List (Event K)),
      minimize f (n + 1) x y t m ml = some s ∧
      minimizeLog f (n + 1) x y t m ml d = some (s, log) ∧
      (∀ ev ∈ log, ev.depth = d ∧ ev.x = x ∧ ev.y = y) ∧
      (⟨x, y, (f x y).left, (f x y).right⟩ : minimizer K) ∈ s.2 ∧
      s.2.Perm (⟨x, y, (f x y).left, (f x y).right⟩ :: (tighten (f x y) m ml).2) ∧
      s.2.length = (tighten (f x y) m ml).2.length + 1 := by
  refine ⟨_, _, minimize_leaf f n x y t m ml h1 h2, minimizeLog_leaf f n x y t m ml d h1 h2,
    ?_, (mem_insert _ _ _).2 (Or.inl rfl), perm_insert _ _, length_insert _ _⟩
  intro ev hev
  rcases List.mem_append.1 hev with hev | hev
  · rcases mem_headEvents f x y d m ml ev hev with he | ⟨_, he⟩ <;> rw [he] <;>
      exact ⟨rfl, rfl, rfl⟩
  · rw [List.mem_singleton.1 hev]
    exact ⟨rfl, rfl, rfl⟩

/-- Witness of C14: `x^2 + y^2` over the leaf box `[0,1] x [0,1]` with threshold `1` and
`min_ub = 2`, the list holding already an entry of the same `lb = 0`. -/
theorem leaf_insertion_witness :
    ∃ (s : Store ℚ) (log : List (Event ℚ)),
      minimize sumsq (0 + 1) ⟨0, 1⟩ ⟨0, 1⟩ (Dbl.fin 1) (Dbl.fin 2)
        [⟨⟨-1, 0⟩, ⟨-1, 0⟩, Dbl.fin 0, Dbl.fin 2⟩] = some s ∧
      minimizeLog sumsq (0 + 1) ⟨0, 1⟩ ⟨0, 1⟩ (Dbl.fin 1) (Dbl.fin 2)
        [⟨⟨-1, 0⟩, ⟨-1, 0⟩, Dbl.fin 0, Dbl.fin 2⟩] 0 = some (s, log) ∧
      (∀ ev ∈ log, ev.depth = 0 ∧ ev.x = ⟨0, 1⟩ ∧ ev.y = ⟨0, 1⟩) ∧
      (⟨⟨0, 1⟩, ⟨0, 1⟩, (sumsq (K := ℚ) ⟨0, 1⟩ ⟨0, 1⟩).left,
          (sumsq (K := ℚ) ⟨0, 1⟩ ⟨0, 1⟩).right⟩ : minimizer ℚ) ∈ s.2 ∧
      s.2.Perm (⟨⟨0, 1⟩, ⟨0, 1⟩, (sumsq (K := ℚ) ⟨0, 1⟩ ⟨0, 1⟩).left,
          (sumsq (K := ℚ) ⟨0, 1⟩ ⟨0, 1⟩).right⟩ ::
        (tighten (sumsq (K := ℚ) ⟨0, 1⟩ ⟨0, 1⟩) (Dbl.fin 2)
          [⟨⟨-1, 0⟩, ⟨-1, 0⟩, Dbl.fin 0, Dbl.fin 2⟩]).2) ∧
      s.2.length = (tighten (sumsq (K := ℚ) ⟨0, 1⟩ ⟨0, 1⟩) (Dbl.fin 2)
          [⟨⟨-1, 0⟩, ⟨-1, 0⟩, Dbl.fin 0, Dbl.fin 2⟩]).2.length + 1 :=
  leaf_insertion sumsq 0 ⟨0, 1⟩ ⟨0, 1⟩ (Dbl.fin 1) (Dbl.fin 2)
    [⟨⟨-1, 0⟩, ⟨-1, 0⟩, Dbl.fin 0, Dbl.fin 2⟩] 0 (by decide!) (by decide!)

/-! ## Numeric degeneracy (C15) -/

/-- C15 (numeric degeneracy).  For every box whose evaluated bound is
`[-infinity, +infinity]`, `minimize` does not prune-reject the box and the tightening
block leaves `min_ub` and the list as they are; the box is inserted as a minimizer when
`x.width ≤ threshold`, and the call recurses into the four sub-boxes, from the unchanged
state, when `x.width > threshold`. -/
theorem degenerate_bound (f : itvfun K) (n : Nat) (x y : interval K) (t m : Dbl K)
    (ml : minimizer_list K) (hF : f x y = ⟨Dbl.ninf, Dbl.pinf⟩) :
    ¬ (f x y).left > m ∧
    tighten (f x y) m ml = (m, ml) ∧
    (Dbl.fin x.width ≤ t →
      minimize f (n + 1) x y t m ml = some (m, ml.insert ⟨x, y, Dbl.ninf, Dbl.pinf⟩)) ∧
    (¬ Dbl.fin x.width ≤ t →
      minimize f (n + 1) x y t m ml
        = (minimize f n (split_box x y).xl (split_box x y).yl t m ml).bind fun s1 =>
          (minimize f n (split_box x y).xl (split_box x y).yr t s1.1 s1.2).bind fun s2 =>
          (minimize f n (split_box x y).xr (split_box x y).yl t s2.1 s2.2).bind fun s3 =>
          minimize f n (split_box x y).xr (split_box x y).yr t s3.1 s3.2) := by
  have h1 : ¬ (f x y).left > m := by
    rw [hF]; exact Dbl.not_lt_ninf m
  have h0 : tighten (f x y) m ml = (m, ml) := by
    apply tighten_of_not_lt
    rw [hF]; exact Dbl.not_pinf_lt m
  refine ⟨h1, h0, fun h2 => ?_, fun h2 => ?_⟩
  · rw [minimize_leaf f n x y t m ml h1 h2, h0, hF]
  · rw [minimize_split f n x y t m ml h1 h2, h0]

/-- Witness of C15: the objective `unboundedItv`, whose enclosure is
`[-infinity, +infinity]` on every box, over `[0,1] x [0,1]` with threshold `1/2` and `min_ub = 3`. -/
theorem degenerate_bound_witness :
    ¬ ((unboundedItv : itvfun ℚ) ⟨0, 1⟩ ⟨0, 1⟩).left > Dbl.fin 3 ∧
    tighten ((unboundedItv : itvfun ℚ) ⟨0, 1⟩ ⟨0, 1⟩) (Dbl.fin 3) []
      = (Dbl.fin 3, []) ∧
    (Dbl.fin (⟨0, 1⟩ : interval ℚ).width ≤ Dbl.fin (1 / 2) →
      minimize (unboundedItv : itvfun ℚ) (1 + 1) ⟨0, 1⟩ ⟨0, 1⟩
          (Dbl.fin (1 / 2)) (Dbl.fin 3) []
        = some (Dbl.fin 3,
            minimizer_list.insert [] ⟨⟨0, 1⟩, ⟨0, 1⟩, Dbl.ninf, Dbl.pinf⟩)) ∧
    (¬ Dbl.fin (⟨0, 1⟩ : interval ℚ).width ≤ Dbl.fin (1 / 2) →
      minimize (unboundedItv : itvfun ℚ) (1 + 1) ⟨0, 1⟩ ⟨0, 1⟩
          (Dbl.fin (1 / 2)) (Dbl.fin 3) []
        = (minimize (unboundedItv : itvfun ℚ) 1
              (split_box (⟨0, 1⟩ : interval ℚ) ⟨0, 1⟩).xl
              (split_box (⟨0, 1⟩ : interval ℚ) ⟨0, 1⟩).yl (Dbl.fin (1 / 2)) (Dbl.fin 3)
              []).bind fun s1 =>
          (minimize (unboundedItv : itvfun ℚ) 1
              (split_box (⟨0, 1⟩ : interval ℚ) ⟨0, 1⟩).xl
              (split_box (⟨0, 1⟩ : interval ℚ) ⟨0, 1⟩).yr (Dbl.fin (1 / 2)) s1.1
              s1.2).bind fun s2 =>
          (minimize (unboundedItv : itvfun ℚ) 1
              (split_box (⟨0, 1⟩ : interval ℚ) ⟨0, 1⟩).xr
              (split_box (⟨0, 1⟩ : interval ℚ) ⟨0, 1⟩).yl (Dbl.fin (1 / 2)) s2.1
              s2.2).bind fun s3 =>
          minimize (unboundedItv : itvfun ℚ) 1
            (split_box (⟨0, 1⟩ : interval ℚ) ⟨0, 1⟩).xr
            (split_box (⟨0, 1⟩ : interval ℚ) ⟨0, 1⟩).yr (Dbl.fin (1 / 2)) s3.1 s3.2) :=
  degenerate_bound unboundedItv 1 ⟨0, 1⟩ ⟨0, 1⟩ (Dbl.fin (1 / 2))
    (Dbl.fin 3) [] rfl

/-! ## Runs of `minimize`, sub-boxes and points -/

theorem minimizeLog_of_minimize (f : itvfun K) (n : Nat) (x y : interval K) (t m : Dbl K)
    (ml : minimizer_list K) (d : Nat) (s : Store K)
    (h : minimize f n x y t m ml = some s) :
    ∃ log : List (Event K), minimizeLog f n x y t m ml d = some (s, log) := by
  rw [← minimizeLog_fst f n x y t m ml d] at h
  cases hlog : minimizeLog f n x y t m ml d with
  | none => rw [hlog] at h; exact absurd h (by simp)
  | some r =>
    rw [hlog] at h
    simp only [Option.map_some', Option.some.injEq] at h
    exact ⟨r.2, by rw [← h]⟩

theorem minimize_fst_le (f : itvfun K) (n : Nat) (x y : interval K) (t m : Dbl K)
    (ml : minimizer_list K) (s : Store K) (h : minimize f n x y t m ml = some s) :
    s.1 ≤ m := by
  obtain ⟨log, hlog⟩ := minimizeLog_of_minimize f n x y t m ml 0 s h
  have hseg := minimizeLog_seg f t n x y m ml 0 s log hlog
  exact (List.pairwise_cons.1 hseg).1 s.1
    (List.mem_append.2 (Or.inr (List.mem_singleton.2 rfl)))

/-- Inversion of a successful run of `minimize`. -/
theorem minimize_cases (f : itvfun K) (n : Nat) (x y : interval K) (t m : Dbl K)
    (ml : minimizer_list K) (s : Store K) (h : minimize f (n + 1) x y t m ml = some s) :
    ((f x y).left > m ∧ s = (m, ml)) ∨
    (¬ (f x y).left > m ∧ Dbl.fin x.width ≤ t ∧
        s = ((tighten (f x y) m ml).1,
          (tighten (f x y) m ml).2.insert ⟨x, y, (f x y).left, (f x y).right⟩)) ∨
    (¬ (f x y).left > m ∧ ¬ Dbl.fin x.width ≤ t ∧
      ∃ s1 s2 s3 : Store K,
        minimize f n (split_box x y).xl (split_box x y).yl t
          (tighten (f x y) m ml).1 (tighten (f x y) m ml).2 = some s1 ∧
        minimize f n (split_box x y).xl (split_box x y).yr t s1.1 s1.2 = some s2 ∧
        minimize f n (split_box x y).xr (split_box x y).yl t s2.1 s2.2 = some s3 ∧
        minimize f n (split_box x y).xr (split_box x y).yr t s3.1 s3.2 = some s) := by
  by_cases h1 : (f x y).left > m
  · rw [minimize_reject f n x y t m ml h1] at h
    exact Or.inl ⟨h1, (Option.some.inj h).symm⟩
  · by_cases h2 : Dbl.fin x.width ≤ t
    · rw [minimize_leaf f n x y t m ml h1 h2] at h
      exact Or.inr (Or.inl ⟨h1, h2, (Option.some.inj h).symm⟩)
    · rw [minimize_split f n x y t m ml h1 h2] at h
      simp only [Option.bind_eq_some] at h
      obtain ⟨s1, e1, s2, e2, s3, e3, e4⟩ := h
      exact Or.inr (Or.inr ⟨h1, h2, s1, s2, s3, e1, e2, e3, e4⟩)

/-- With a positive threshold, in exact arithmetic, `minimize` returns a result for every
sufficient recursion budget. -/
theorem minimize_returns [Archimedean K] (f : itvfun K) (x y : interval K) (t m : Dbl K)
    (ml : minimizer_list K) (ht : Dbl.fin 0 < t) :
    ∃ (n : Nat) (s : Store K), ∀ k : Nat, minimize f (n + k) x y t m ml = some s := by
  obtain ⟨n, hn⟩ := exists_halving x.width t ht
  obtain ⟨s, log, hrun, _⟩ := minimizeLog_returns f t n x y m ml 0 hn
  exact ⟨n + 1, s, fun k => minimize_fuel_add f (n + 1) k x y t m ml s
    (minimize_of_minimizeLog f (n + 1) x y t m ml 0 s log hrun)⟩

theorem child_subset (q : Quadrant) (x y : interval K) (px py : K)
    (h : inBox (child q x y).1 (child q x y).2 px py) : inBox x y px py := by
  cases q <;>
    simp only [child, split_box, inBox, interval.contains, interval.mid] at h ⊢ <;>
    obtain ⟨⟨a1, a2⟩, ⟨a3, a4⟩⟩ := h <;>
    exact ⟨⟨by linarith, by linarith⟩, ⟨by linarith, by linarith⟩⟩

theorem child_cover (x y : interval K) (px py : K) (h : inBox x y px py) :
    ∃ q : Quadrant, inBox (child q x y).1 (child q x y).2 px py := by
  obtain ⟨⟨hxl, hxr⟩, ⟨hyl, hyr⟩⟩ := h
  rcases le_total px x.mid with hpx | hpx <;> rcases le_total py y.mid with hpy | hpy
  · exact ⟨Quadrant.ll, ⟨hxl, hpx⟩, ⟨hyl, hpy⟩⟩
  · exact ⟨Quadrant.lr, ⟨hxl, hpx⟩, ⟨hpy, hyr⟩⟩
  · exact ⟨Quadrant.rl, ⟨hpx, hxr⟩, ⟨hyl, hpy⟩⟩
  · exact ⟨Quadrant.rr, ⟨hpx, hxr⟩, ⟨hpy, hyr⟩⟩

theorem descend_subset (path : List Quadrant) (x y : interval K) (px py : K)
    (h : inBox (descend path x y).1 (descend path x y).2 px py) : inBox x y px py := by
  induction path generalizing x y with
  | nil => exact h
  | cons q path ih => exact child_subset q x y px py (ih _ _ h)

theorem corner_mem (x y : interval K) (hx : x.left ≤ x.right) (hy : y.left ≤ y.right) :
    inBox x y x.left y.left :=
  ⟨⟨le_rfl, hx⟩, ⟨le_rfl, hy⟩⟩

/-! ## The reported upper bound is valid (C16) -/

theorem minimize_fst_le_right (f : itvfun K) (n : Nat) (x y : interval K) (t m : Dbl K)
    (ml : minimizer_list K) (s : Store K) (h1 : ¬ (f x y).left > m)
    (h : minimize f n x y t m ml = some s) : s.1 ≤ (f x y).right := by
  have hst : (tighten (f x y) m ml).1 ≤ (f x y).right := by
    rw [tighten_fst]; exact min_le_right _ _
  cases n with
  | zero => exact absurd h (by simp [minimize])
  | succ n =>
    rcases minimize_cases f n x y t m ml s h with
      ⟨hp, _⟩ | ⟨_, _, hs⟩ | ⟨_, _, s1, s2, s3, e1, e2, e3, e4⟩
    · exact absurd hp h1
    · rw [hs]; exact hst
    · exact (minimize_fst_le f n _ _ t _ _ s e4).trans
        ((minimize_fst_le f n _ _ t _ _ s3 e3).trans
          ((minimize_fst_le f n _ _ t _ _ s2 e2).trans
            ((minimize_fst_le f n _ _ t _ _ s1 e1).trans hst)))

/-- Every value of `min_ub` reached from `+infinity` is at least the value of the
objective at some point of the root box. -/
theorem minimize_bound_attained (fr : K → K → K) (f : itvfun K) (hs : inclusionSound fr f)
    (n : Nat) (x y : interval K) (t m : Dbl K) (ml : minimizer_list K) (s : Store K)
    (hx : x.left ≤ x.right) (hy : y.left ≤ y.right)
    (hm : m = Dbl.pinf ∨ ∃ px py : K, inBox x y px py ∧ Dbl.fin (fr px py) ≤ m)
    (h : minimize f n x y t m ml = some s) :
    s.1 = Dbl.pinf ∨ ∃ px py : K, inBox x y px py ∧ Dbl.fin (fr px py) ≤ s.1 := by
  obtain ⟨log, hlog⟩ := minimizeLog_of_minimize f n x y t m ml 0 s h
  have hstep : ∀ (x1 y1 : interval K) (m1 : Dbl K) (ml1 : minimizer_list K),
      ((x1.left ≤ x1.right ∧ y1.left ≤ y1.right) ∧
        ∀ px py : K, inBox x1 y1 px py → inBox x y px py) →
      (m1 = Dbl.pinf ∨ ∃ px py : K, inBox x y px py ∧ Dbl.fin (fr px py) ≤ m1) →
      ((tighten (f x1 y1) m1 ml1).1 = Dbl.pinf ∨
        ∃ px py : K, inBox x y px py ∧ Dbl.fin (fr px py) ≤ (tighten (f x1 y1) m1 ml1).1) := by
    rintro x1 y1 m1 ml1 ⟨⟨hx1, hy1⟩, hsub⟩ hi
    by_cases hlt : (f x1 y1).right < m1
    · rw [tighten_of_lt _ _ _ hlt]
      have hc := corner_mem x1 y1 hx1 hy1
      exact Or.inr ⟨x1.left, y1.left, hsub _ _ hc, (hs x1 y1 _ _ hc).2⟩
    · rw [tighten_of_not_lt _ _ _ hlt]
      exact hi
  have key := minimizeLog_invariant f t
    (fun x1 y1 _ => (x1.left ≤ x1.right ∧ y1.left ≤ y1.right) ∧
      ∀ px py : K, inBox x1 y1 px py → inBox x y px py)
    (fun m1 _ => m1 = Dbl.pinf ∨ ∃ px py : K, inBox x y px py ∧ Dbl.fin (fr px py) ≤ m1)
    (fun _ => True)
    (by
      rintro x1 y1 _ ⟨⟨hx1, hy1⟩, hsub⟩ _ q
      exact ⟨split_box_wf x1 y1 hx1 hy1 q,
        fun px py hp => hsub px py (child_subset q x1 y1 px py hp)⟩)
    (fun x1 y1 _ m1 ml1 hb hi _ => hstep x1 y1 m1 ml1 hb hi)
    (fun x1 y1 _ m1 ml1 hb hi _ _ => hstep x1 y1 m1 ml1 hb hi)
    (fun _ _ _ _ _ _ _ => trivial)
    (fun _ _ _ _ _ _ _ _ => trivial)
    (fun _ _ _ _ _ _ _ _ _ => trivial)
    (fun _ _ _ _ _ _ _ _ _ => trivial)
    n x y m ml 0 s log ⟨⟨hx, hy⟩, fun _ _ hp => hp⟩ hm hlog
  exact key.1

/-- C16 (the reported upper bound is a valid upper bound on the global minimum).  Let
`f` be inclusion-sound for the objective `fr`, the root box be an interval box
(`left ≤ right` in both dimensions) whose enclosure `f(root)` is finite, and the
threshold be positive.  Then `minimize` run from `min_ub = +infinity` returns a result
(for every sufficient budget), and for every result there is a point `p` of the root box
with `fr(p) ≤ min_ub`; hence `min_ub` is at least the minimum of `fr` over the root box,
wherever it is attained; and `min_ub ≤ f(root).right`. -/
theorem upper_bound_valid [Archimedean K] (fr : K → K → K) (f : itvfun K)
    (hs : inclusionSound fr f) (x y : interval K) (t : Dbl K) (ml : minimizer_list K)
    (hx : x.left ≤ x.right) (hy : y.left ≤ y.right) (ht : Dbl.fin 0 < t)
    (hfin : ∃ a b : K, f x y = ⟨Dbl.fin a, Dbl.fin b⟩) :
    (∃ (n : Nat) (s : Store K), ∀ k : Nat, minimize f (n + k) x y t Dbl.pinf ml = some s) ∧
    ∀ (n : Nat) (s : Store K), minimize f n x y t Dbl.pinf ml = some s →
      (∃ px py : K, inBox x y px py ∧ Dbl.fin (fr px py) ≤ s.1) ∧
      (∀ qx qy : K, inBox x y qx qy → (∀ px py : K, inBox x y px py → fr qx qy ≤ fr px py) →
        Dbl.fin (fr qx qy) ≤ s.1) ∧
      s.1 ≤ (f x y).right := by
  refine ⟨minimize_returns f x y t Dbl.pinf ml ht, ?_⟩
  intro n s hrun
  have hle : s.1 ≤ (f x y).right :=
    minimize_fst_le_right f n x y t Dbl.pinf ml s (Dbl.not_pinf_lt _) hrun
  have hne : s.1 ≠ Dbl.pinf := by
    obtain ⟨a, b, hab⟩ := hfin
    intro heq
    rw [heq, hab] at hle
    exact Dbl.not_pinf_le_fin b hle
  have hpt : ∃ px py : K, inBox x y px py ∧ Dbl.fin (fr px py) ≤ s.1 := by
    rcases minimize_bound_attained fr f hs n x y t Dbl.pinf ml s hx hy (Or.inl rfl) hrun with
      h | h
    · exact absurd h hne
    · exact h
  refine ⟨hpt, ?_, hle⟩
  intro qx qy _ hmin
  obtain ⟨px, py, hp, hps⟩ := hpt
  exact ((Dbl.fin_le_fin _ _).2 (hmin px py hp)).trans hps

/-- Witness of C16: the search for `x^2 + y^2` over `[-1,1] x [-1,1]` with threshold
`1/10`, from `min_ub = +infinity` and the empty list. -/
theorem upper_bound_valid_witness :
    (∃ (n : Nat) (s : Store ℚ), ∀ k : Nat,
      minimize sumsq (n + k) ⟨-1, 1⟩ ⟨-1, 1⟩ (Dbl.fin (1 / 10)) Dbl.pinf [] = some s) ∧
    ∀ (n : Nat) (s : Store ℚ),
      minimize sumsq n ⟨-1, 1⟩ ⟨-1, 1⟩ (Dbl.fin (1 / 10)) Dbl.pinf [] = some s →
      (∃ px py : ℚ, inBox ⟨-1, 1⟩ ⟨-1, 1⟩ px py ∧ Dbl.fin (px ^ 2 + py ^ 2) ≤ s.1) ∧
      (∀ qx qy : ℚ, inBox ⟨-1, 1⟩ ⟨-1, 1⟩ qx qy →
        (∀ px py : ℚ, inBox ⟨-1, 1⟩ ⟨-1, 1⟩ px py → qx ^ 2 + qy ^ 2 ≤ px ^ 2 + py ^ 2) →
        Dbl.fin (qx ^ 2 + qy ^ 2) ≤ s.1) ∧
      s.1 ≤ (sumsq (K := ℚ) ⟨-1, 1⟩ ⟨-1, 1⟩).right :=
  upper_bound_valid (fun px py => px ^ 2 + py ^ 2) sumsq sumsq_sound ⟨-1, 1⟩ ⟨-1, 1⟩
    (Dbl.fin (1 / 10)) [] (by decide!) (by decide!) (by decide!) ⟨0, 2, by decide!⟩

/-! ## The result brackets the global minimum (C17) -/

theorem insert_head (ml : minimizer_list K) (new : minimizer K) (v : Dbl K)
    (h : new.lb ≤ v ∨ ∃ e rest, ml = e :: rest ∧ e.lb ≤ v) :
    ∃ e rest, ml.insert new = e :: rest ∧ e.lb ≤ v := by
  cases ml with
  | nil =>
    rcases h with h | ⟨e, rest, he, _⟩
    · exact ⟨new, [], rfl, h⟩
    · exact absurd he (by simp)
  | cons a l =>
    by_cases hlt : new.less a
    · refine ⟨new, a :: l, by simp [minimizer_list.insert, hlt], ?_⟩
      rcases h with h | ⟨e, rest, he, hle⟩
      · exact h
      · rw [← (List.cons.inj he).1] at hle
        exact (le_of_lt hlt).trans hle
    · refine ⟨a, l.takeWhile (fun e => decide (¬ new.less e)) ++
          new :: (a :: l).dropWhile (fun e => decide (¬ new.less e)), ?_, ?_⟩
      · simp only [minimizer_list.insert, List.takeWhile_cons, hlt, not_false_eq_true,
          decide_True, if_true, List.cons_append]
      · rcases h with h | ⟨e, rest, he, hle⟩
        · exact (not_lt.1 hlt).trans h
        · rw [← (List.cons.inj he).1] at hle
          exact hle

theorem takeWhile_head (ml : minimizer_list K) (r v : Dbl K) (hv : v < r)
    (h : ∃ e rest, ml = e :: rest ∧ e.lb ≤ v) :
    ∃ e rest, ml.takeWhile (fun e => decide (e.lb < r)) = e :: rest ∧ e.lb ≤ v := by
  obtain ⟨e, rest, he, hle⟩ := h
  refine ⟨e, rest.takeWhile (fun e => decide (e.lb < r)), ?_, hle⟩
  rw [he, List.takeWhile_cons, decide_eq_true (lt_of_le_of_lt hle hv)]
  rfl

theorem exists_min_lb (ml : minimizer_list K) (h : ml ≠ []) :
    ∃ e ∈ ml, ∀ e' ∈ ml, e.lb ≤ e'.lb := by
  induction ml with
  | nil => exact absurd rfl h
  | cons a l ih =>
    by_cases hl : l = []
    · refine ⟨a, List.mem_cons_self _ _, fun e' he' => ?_⟩
      rw [hl, List.mem_singleton] at he'
      rw [he']
    · obtain ⟨e, he, hmin⟩ := ih hl
      rcases le_total a.lb e.lb with hae | hea
      · refine ⟨a, List.mem_cons_self _ _, fun e' he' => ?_⟩
        rcases List.mem_cons.1 he' with h1 | h1
        · rw [h1]
        · exact hae.trans (hmin e' h1)
      · refine ⟨e, List.mem_cons_of_mem _ he, fun e' he' => ?_⟩
        rcases List.mem_cons.1 he' with h1 | h1
        · rw [h1]; exact hea
        · exact hmin e' h1

/-- Core of C17.  Let `v` be a lower bound of the objective on the box of the call and
`v ≤ min_ub`.  Then `v ≤ min_ub` after the call; and if the box holds a point where the
objective equals `v`, or the first entry of the list has `lb ≤ v` before the call, then
the first entry of the list has `lb ≤ v` after the call. -/
theorem bracket_core (fr : K → K → K) (f : itvfun K) (hs : inclusionSound fr f) (v : K)
    (t : Dbl K) (n : Nat) :
    ∀ (x y : interval K) (m : Dbl K) (ml : minimizer_list K) (s : Store K),
      x.left ≤ x.right → y.left ≤ y.right →
      (∀ qx qy : K, inBox x y qx qy → v ≤ fr qx qy) → Dbl.fin v ≤ m →
      minimize f n x y t m ml = some s →
      Dbl.fin v ≤ s.1 ∧
      (((∃ qx qy : K, inBox x y qx qy ∧ fr qx qy = v) ∨
          (∃ e rest, ml = e :: rest ∧ e.lb ≤ Dbl.fin v)) →
        ∃ e rest, s.2 = e :: rest ∧ e.lb ≤ Dbl.fin v) := by
  induction n with
  | zero =>
    intro x y m ml s _ _ _ _ h
    exact absurd h (by simp [minimize])
  | succ n ih =>
    intro x y m ml s hx hy hlow hm h
    have hc := corner_mem x y hx hy
    have hvr : Dbl.fin v ≤ (f x y).right :=
      ((Dbl.fin_le_fin _ _).2 (hlow _ _ hc)).trans (hs x y _ _ hc).2
    have hst1 : Dbl.fin v ≤ (tighten (f x y) m ml).1 := by
      rw [tighten_fst]; exact le_min hm hvr
    have hcov : (∃ qx qy : K, inBox x y qx qy ∧ fr qx qy = v) → (f x y).left ≤ Dbl.fin v := by
      rintro ⟨qx, qy, hq, he⟩
      have := (hs x y qx qy hq).1
      rwa [he] at this
    have hst2 : ¬ (∃ qx qy : K, inBox x y qx qy ∧ fr qx qy = v) →
        (∃ e rest, ml = e :: rest ∧ e.lb ≤ Dbl.fin v) →
        ∃ e rest, (tighten (f x y) m ml).2 = e :: rest ∧ e.lb ≤ Dbl.fin v := by
      intro hnc hg
      by_cases hlt : (f x y).right < m
      · rw [tighten_of_lt _ _ _ hlt]
        refine takeWhile_head ml _ _ (lt_of_le_of_ne hvr ?_) hg
        intro heq
        apply hnc
        refine ⟨x.left, y.left, hc, le_antisymm ?_ (hlow _ _ hc)⟩
        have := (hs x y _ _ hc).2
        rw [← heq, Dbl.fin_le_fin] at this
        exact this
      · rw [tighten_of_not_lt _ _ _ hlt]
        exact hg
    rcases minimize_cases f n x y t m ml s h with
      ⟨hp, hs'⟩ | ⟨_, _, hs'⟩ | ⟨_, _, s1, s2, s3, e1, e2, e3, e4⟩
    · rw [hs']
      refine ⟨hm, fun hor => ?_⟩
      rcases hor with hcv | hg
      · exact absurd hp (not_lt.2 ((hcov hcv).trans hm))
      · exact hg
    · rw [hs']
      refine ⟨hst1, fun hor => insert_head _ _ _ ?_⟩
      by_cases hcv : ∃ qx qy : K, inBox x y qx qy ∧ fr qx qy = v
      · exact Or.inl (hcov hcv)
      · exact Or.inr (hst2 hcv (hor.resolve_left hcv))
    · have hwf := split_box_wf x y hx hy
      have hlq : ∀ q : Quadrant, ∀ qx qy : K,
          inBox (child q x y).1 (child q x y).2 qx qy → v ≤ fr qx qy :=
        fun q qx qy hq => hlow qx qy (child_subset q x y qx qy hq)
      have r1 := ih (split_box x y).xl (split_box x y).yl _ _ s1 (hwf Quadrant.ll).1
        (hwf Quadrant.ll).2 (hlq Quadrant.ll) hst1 e1
      have r2 := ih (split_box x y).xl (split_box x y).yr _ _ s2 (hwf Quadrant.lr).1
        (hwf Quadrant.lr).2 (hlq Quadrant.lr) r1.1 e2
      have r3 := ih (split_box x y).xr (split_box x y).yl _ _ s3 (hwf Quadrant.rl).1
        (hwf Quadrant.rl).2 (hlq Quadrant.rl) r2.1 e3
      have r4 := ih (split_box x y).xr (split_box x y).yr _ _ s (hwf Quadrant.rr).1
        (hwf Quadrant.rr).2 (hlq Quadrant.rr) r3.1 e4
      refine ⟨r4.1, fun hor => ?_⟩
      by_cases hcv : ∃ qx qy : K, inBox x y qx qy ∧ fr qx qy = v
      · obtain ⟨qx, qy, hq, he⟩ := hcv
        obtain ⟨q, hq'⟩ := child_cover x y qx qy hq
        cases q with
        | ll =>
          exact r4.2 (Or.inr (r3.2 (Or.inr (r2.2 (Or.inr (r1.2 (Or.inl ⟨qx, qy, hq', he⟩)))))))
        | lr => exact r4.2 (Or.inr (r3.2 (Or.inr (r2.2 (Or.inl ⟨qx, qy, hq', he⟩)))))
        | rl => exact r4.2 (Or.inr (r3.2 (Or.inl ⟨qx, qy, hq', he⟩)))
        | rr => exact r4.2 (Or.inl ⟨qx, qy, hq', he⟩)
      · exact r4.2 (Or.inr (r3.2 (Or.inr (r2.2 (Or.inr (r1.2
          (Or.inr (hst2 hcv (hor.resolve_left hcv)))))))))

/-- C17 (the result brackets the global minimum).  Let `f` be inclusion-sound for the
objective `fr`, let `fr` attain its minimum over the root box at the point `(px, py)` of
the box, and let the threshold be positive.  Then `minimize` run from
`min_ub = +infinity` and an empty list returns a result (for every sufficient budget),
and for every result the returned list is non-empty and its smallest `lb` satisfies
`smallest lb ≤ fr(px, py) ≤ min_ub`. -/
theorem result_brackets_minimum [Archimedean K] (fr : K → K → K) (f : itvfun K)
    (hs : inclusionSound fr f) (x y : interval K) (t : Dbl K) (px py : K)
    (ht : Dbl.fin 0 < t) (hp : inBox x y px py)
    (hmin : ∀ qx qy : K, inBox x y qx qy → fr px py ≤ fr qx qy) :
    (∃ (n : Nat) (s : Store K), ∀ k : Nat, minimize f (n + k) x y t Dbl.pinf [] = some s) ∧
    ∀ (n : Nat) (s : Store K), minimize f n x y t Dbl.pinf [] = some s →
      s.2 ≠ [] ∧
      (∃ e ∈ s.2, (∀ e' ∈ s.2, e.lb ≤ e'.lb) ∧ e.lb ≤ Dbl.fin (fr px py)) ∧
      Dbl.fin (fr px py) ≤ s.1 := by
  refine ⟨minimize_returns f x y t Dbl.pinf [] ht, ?_⟩
  intro n s hrun
  have hx : x.left ≤ x.right := hp.1.1.trans hp.1.2
  have hy : y.left ≤ y.right := hp.2.1.trans hp.2.2
  have key := bracket_core fr f hs (fr px py) t n x y Dbl.pinf [] s hx hy hmin
    (Dbl.le_pinf _) hrun
  obtain ⟨e0, rest, he0, hle0⟩ := key.2 (Or.inl ⟨px, py, hp, rfl⟩)
  have hne : s.2 ≠ [] := by rw [he0]; exact List.cons_ne_nil _ _
  obtain ⟨e, he, hmin'⟩ := exists_min_lb s.2 hne
  refine ⟨hne, ⟨e, he, hmin', ?_⟩, key.1⟩
  exact (hmin' e0 (by rw [he0]; exact List.mem_cons_self _ _)).trans hle0

/-- Witness of C17: the search for `x^2 + y^2`, minimal at `(0,0)`, over
`[-1,1] x [-1,1]` with threshold `1/10`. -/
theorem result_brackets_minimum_witness :
    (∃ (n : Nat) (s : Store ℚ), ∀ k : Nat,
      minimize sumsq (n + k) ⟨-1, 1⟩ ⟨-1, 1⟩ (Dbl.fin (1 / 10)) Dbl.pinf [] = some s) ∧
    ∀ (n : Nat) (s : Store ℚ),
      minimize sumsq n ⟨-1, 1⟩ ⟨-1, 1⟩ (Dbl.fin (1 / 10)) Dbl.pinf [] = some s →
      s.2 ≠ [] ∧
      (∃ e ∈ s.2, (∀ e' ∈ s.2, e.lb ≤ e'.lb) ∧ e.lb ≤ Dbl.fin ((0 : ℚ) ^ 2 + (0 : ℚ) ^ 2)) ∧
      Dbl.fin ((0 : ℚ) ^ 2 + (0 : ℚ) ^ 2) ≤ s.1 :=
  result_brackets_minimum (fun px py => px ^ 2 + py ^ 2) sumsq sumsq_sound ⟨-1, 1⟩ ⟨-1, 1⟩
    (Dbl.fin (1 / 10)) 0 0 (by decide!) (by decide!)
    (fun qx qy _ => by
      show (0 : ℚ) ^ 2 + (0 : ℚ) ^ 2 ≤ qx ^ 2 + qy ^ 2
      nlinarith [sq_nonneg qx, sq_nonneg qy])

/-! ## Returned entries are evaluated sub-boxes of the root (C18) -/

/-- C18 (every returned entry is an evaluated sub-box of the root).  After a run of
`minimize` from an empty list, every entry `(x, y, lb, ub)` of the returned list has a
box obtained from the root box by repeated `split_box` quadrant steps, contained in the
root box, and carries `lb = f(x,y).left` and `ub = f(x,y).right` for its own box. -/
theorem returned_entries_evaluated (f : itvfun K) (n : Nat) (x y : interval K)
    (t m : Dbl K) (s : Store K) (hrun : minimize f n x y t m [] = some s) :
    ∀ e ∈ s.2,
      (∃ path : List Quadrant, (e.x, e.y) = descend path x y) ∧
      (∀ px py : K, inBox e.x e.y px py → inBox x y px py) ∧
      e.lb = (f e.x e.y).left ∧ e.ub = (f e.x e.y).right := by
  obtain ⟨log, hlog⟩ := minimizeLog_of_minimize f n x y t m [] 0 s hrun
  have key := minimizeLog_invariant f t
    (fun x1 y1 _ => ∃ path : List Quadrant, (x1, y1) = descend path x y)
    (fun _ ml1 => ∀ e ∈ ml1,
      (∃ path : List Quadrant, (e.x, e.y) = descend path x y) ∧
      e.lb = (f e.x e.y).left ∧ e.ub = (f e.x e.y).right)
    (fun _ => True)
    (by
      rintro x1 y1 _ ⟨path, hxy⟩ _ q
      exact ⟨path ++ [q], by rw [descend_snoc, ← hxy]⟩)
    (fun x1 y1 _ m1 ml1 _ hi _ e he => hi e (mem_tighten (f x1 y1) m1 ml1 e he).1)
    (by
      intro x1 y1 _ m1 ml1 hb hi _ _ e he
      rcases (mem_insert _ _ _).1 he with he | he
      · rw [he]; exact ⟨hb, rfl, rfl⟩
      · exact hi e (mem_tighten (f x1 y1) m1 ml1 e he).1)
    (fun _ _ _ _ _ _ _ => trivial)
    (fun _ _ _ _ _ _ _ _ => trivial)
    (fun _ _ _ _ _ _ _ _ _ => trivial)
    (fun _ _ _ _ _ _ _ _ _ => trivial)
    n x y m [] 0 s log ⟨[], rfl⟩ (fun _ he => absurd he (List.not_mem_nil _)) hlog
  intro e he
  obtain ⟨⟨path, hpath⟩, hlb, hub⟩ := key.1 e he
  refine ⟨⟨path, hpath⟩, ?_, hlb, hub⟩
  intro px py hin
  have h1 : e.x = (descend path x y).1 := congrArg Prod.fst hpath
  have h2 : e.y = (descend path x y).2 := congrArg Prod.snd hpath
  rw [h1, h2] at hin
  exact descend_subset path x y px py hin

/-- Witness of C18: the search for `x^2 + y^2` over `[-1,1] x [-1,1]` with threshold
`1/2`, from `min_ub = +infinity` and the empty list. -/
theorem returned_entries_evaluated_witness :
    ∃ s : Store ℚ,
      minimize sumsq 3 ⟨-1, 1⟩ ⟨-1, 1⟩ (Dbl.fin (1 / 2)) Dbl.pinf [] = some s ∧
      ∀ e ∈ s.2,
        (∃ path : List Quadrant, (e.x, e.y) = descend path ⟨-1, 1⟩ ⟨-1, 1⟩) ∧
        (∀ px py : ℚ, inBox e.x e.y px py → inBox ⟨-1, 1⟩ ⟨-1, 1⟩ px py) ∧
        e.lb = (sumsq e.x e.y).left ∧ e.ub = (sumsq e.x e.y).right := by
  have hsome : (minimize (K := ℚ) sumsq 3 ⟨-1, 1⟩ ⟨-1, 1⟩ (Dbl.fin (1 / 2)) Dbl.pinf
      []).isSome = true := by decide!
  obtain ⟨s, h⟩ := Option.isSome_iff_exists.1 hsome
  exact ⟨s, h, returned_entries_evaluated sumsq 3 ⟨-1, 1⟩ ⟨-1, 1⟩ (Dbl.fin (1 / 2)) Dbl.pinf
    s h⟩

/-! ## All returned boxes sit at one depth (C19) -/

theorem atLeafDepth_unique (W H : K) (t : Dbl K) (u w u1 w1 : interval K) (d d1 : Nat)
    (h : atLeafDepth W H t u w d) (h1 : atLeafDepth W H t u1 w1 d1) :
    d = d1 ∧ u.width = u1.width ∧ w.width = w1.width := by
  have hd : d = d1 := by
    rcases Nat.lt_trichotomy d d1 with hlt | heq | hgt
    · exact absurd h.2.2.1 (h1.2.2.2 d hlt)
    · exact heq
    · exact absurd h1.2.2.1 (h.2.2.2 d1 hgt)
  subst hd
  exact ⟨rfl, h.1.trans h1.1.symm, h.2.1.trans h1.2.1.symm⟩

theorem atLeafDepth_half (W H : K) (t : Dbl K) (u w : interval K) (d : Nat)
    (h : atLeafDepth W H t u w d) (tv : K) (ht : t = Dbl.fin tv) (hW : tv < W) :
    tv / 2 < u.width := by
  obtain ⟨hu, _, hle, hleast⟩ := h
  cases d with
  | zero =>
    exfalso
    rw [ht, Dbl.fin_le_fin, pow_zero, div_one] at hle
    exact absurd hW (not_lt.2 hle)
  | succ d =>
    have h4 := hleast d (Nat.lt_succ_self d)
    rw [ht, Dbl.fin_le_fin, not_le] at h4
    rw [hu, ← halve_pow, div_right_comm]
    linarith

/-- C19 (all returned boxes sit at one depth).  In exact arithmetic, for a root box of
x-width `W` and y-width `H` and a threshold `t`, every entry that `minimize` inserts
(every insertion step of the run, and every entry of the list returned from an empty
list) has `x.width = W / 2^d` and `y.width = H / 2^d`, where `d` is the least natural
number with `W / 2^d ≤ t`, the depth of the inserting call; any two returned boxes have
the same widths; and when `W > t` every returned box has `x.width > t/2`. -/
theorem leaves_at_one_depth (f : itvfun K) (n : Nat) (x y : interval K) (t m : Dbl K)
    (s : Store K) (log : List (Event K))
    (hrun : minimizeLog f n x y t m [] 0 = some (s, log)) :
    minimize f n x y t m [] = some s ∧
    (∀ ev ∈ log, ev.step = Step.leaf →
      atLeafDepth x.width y.width t ev.x ev.y ev.depth) ∧
    (∀ e ∈ s.2, ∃ d : Nat, atLeafDepth x.width y.width t e.x e.y d) ∧
    (∀ e ∈ s.2, ∀ e' ∈ s.2, e.x.width = e'.x.width ∧ e.y.width = e'.y.width) ∧
    (∀ tv : K, t = Dbl.fin tv → tv < x.width → ∀ e ∈ s.2, tv / 2 < e.x.width) := by
  have hleaf : ∀ (x1 y1 : interval K) (d1 : Nat),
      (x1.width = x.width / 2 ^ d1 ∧ y1.width = y.width / 2 ^ d1 ∧
        ∀ j < d1, ¬ Dbl.fin (x.width / 2 ^ j) ≤ t) →
      Dbl.fin x1.width ≤ t → atLeafDepth x.width y.width t x1 y1 d1 := by
    rintro x1 y1 d1 ⟨h1, h2, h3⟩ hw
    exact ⟨h1, h2, by rw [← h1]; exact hw, h3⟩
  have key := minimizeLog_invariant f t
    (fun x1 y1 d1 => x1.width = x.width / 2 ^ d1 ∧ y1.width = y.width / 2 ^ d1 ∧
      ∀ j < d1, ¬ Dbl.fin (x.width / 2 ^ j) ≤ t)
    (fun _ ml1 => ∀ e ∈ ml1, ∃ d : Nat, atLeafDepth x.width y.width t e.x e.y d)
    (fun ev => ev.step = Step.leaf → atLeafDepth x.width y.width t ev.x ev.y ev.depth)
    (by
      rintro x1 y1 d1 ⟨h1, h2, h3⟩ hnw q
      have hs := split_box_width x1 y1
      have hx' : x1.width / 2 = x.width / 2 ^ (d1 + 1) := by
        rw [h1, div_right_comm, halve_pow]
      have hy' : y1.width / 2 = y.width / 2 ^ (d1 + 1) := by
        rw [h2, div_right_comm, halve_pow]
      have hj : ∀ j < d1 + 1, ¬ Dbl.fin (x.width / 2 ^ j) ≤ t := by
        intro j hj
        rcases Nat.lt_succ_iff_lt_or_eq.1 hj with hlt | heq
        · exact h3 j hlt
        · rw [heq, ← h1]; exact hnw
      cases q <;> simp only [child] <;>
        simp only [hs.1, hs.2.1, hs.2.2.1, hs.2.2.2] <;> exact ⟨hx', hy', hj⟩)
    (fun x1 y1 _ m1 ml1 _ hi _ e he => hi e (mem_tighten (f x1 y1) m1 ml1 e he).1)
    (by
      intro x1 y1 d1 m1 ml1 hb hi _ h2 e he
      rcases (mem_insert _ _ _).1 he with he | he
      · rw [he]; exact ⟨d1, hleaf x1 y1 d1 hb h2⟩
      · exact hi e (mem_tighten (f x1 y1) m1 ml1 e he).1)
    (fun _ _ _ _ _ _ _ h => by simp at h)
    (fun _ _ _ _ _ _ _ _ h => by simp at h)
    (fun _ _ _ _ _ _ _ _ _ h => by simp at h)
    (fun x1 y1 d1 _ _ hb _ _ h2 _ => hleaf x1 y1 d1 hb h2)
    n x y m [] 0 s log
    ⟨by rw [pow_zero, div_one], by rw [pow_zero, div_one], fun j hj => absurd hj (Nat.not_lt_zero j)⟩
    (fun _ he => absurd he (List.not_mem_nil _)) hrun
  refine ⟨minimize_of_minimizeLog f n x y t m [] 0 s log hrun, key.2, key.1, ?_, ?_⟩
  · intro e he e' he'
    obtain ⟨d, hd⟩ := key.1 e he
    obtain ⟨d', hd'⟩ := key.1 e' he'
    exact (atLeafDepth_unique _ _ _ _ _ _ _ _ _ hd hd').2
  · intro tv htv hW e he
    obtain ⟨d, hd⟩ := key.1 e he
    exact atLeafDepth_half _ _ _ _ _ _ hd tv htv hW

/-- Witness of C19: the search for `x^2 + y^2` over `[-1,1] x [-1,1]` with threshold
`1/2`, from `min_ub = +infinity` and the empty list. -/
theorem leaves_at_one_depth_witness :
    ∃ (s : Store ℚ) (log : List (Event ℚ)),
      minimizeLog sumsq 3 ⟨-1, 1⟩ ⟨-1, 1⟩ (Dbl.fin (1 / 2)) Dbl.pinf [] 0 = some (s, log) ∧
      minimize sumsq 3 ⟨-1, 1⟩ ⟨-1, 1⟩ (Dbl.fin (1 / 2)) Dbl.pinf [] = some s ∧
      (∀ ev ∈ log, ev.step = Step.leaf →
        atLeafDepth (⟨-1, 1⟩ : interval ℚ).width (⟨-1, 1⟩ : interval ℚ).width
          (Dbl.fin (1 / 2)) ev.x ev.y ev.depth) ∧
      (∀ e ∈ s.2, ∃ d : Nat,
        atLeafDepth (⟨-1, 1⟩ : interval ℚ).width (⟨-1, 1⟩ : interval ℚ).width
          (Dbl.fin (1 / 2)) e.x e.y d) ∧
      (∀ e ∈ s.2, ∀ e' ∈ s.2, e.x.width = e'.x.width ∧ e.y.width = e'.y.width) ∧
      (∀ tv : ℚ, Dbl.fin (1 / 2) = Dbl.fin tv → tv < (⟨-1, 1⟩ : interval ℚ).width →
        ∀ e ∈ s.2, tv / 2 < e.x.width) := by
  have hsome : (minimizeLog (K := ℚ) sumsq 3 ⟨-1, 1⟩ ⟨-1, 1⟩ (Dbl.fin (1 / 2)) Dbl.pinf []
      0).isSome = true := by decide!
  obtain ⟨⟨s, log⟩, h⟩ := Option.isSome_iff_exists.1 hsome
  exact ⟨s, log, h, leaves_at_one_depth sumsq 3 ⟨-1, 1⟩ ⟨-1, 1⟩ (Dbl.fin (1 / 2)) Dbl.pinf
    s log h⟩

end Optimization
